import Mathlib

/-!
# PullApiData: the `ConfigFile` key/value store and the command line of `main`

A shallow embedding of `src/Config/ConfigFile.h` and of the part of
`src/main.cpp` that builds the configuration path.

* `std::string` is `String` (a sequence of characters; all operations below go
  through the character list `String.data`).
* `std::map<std::string,std::string>` is `StdMap`: the list of its entries in
  iteration (key) order, with `find`, `operator[]`-assignment and `erase`.
* a C++ exception is the `Except.error` result.
* a reference parameter `T& var` is passed in and returned.
-/

namespace ConfigFile

/-! ## `std::string` helpers from the standard library -/

/-- Ordering `std::less<std::string>`: lexicographic comparison of the
characters, a proper prefix being smaller. -/
def strLess : List Char → List Char → Bool
  | _, [] => false
  | [], _ :: _ => true
  | a :: as, b :: bs => if a < b then true else if b < a then false else strLess as bs

/-- Function `isspace` of `<cctype>` in the "C" locale. -/
def isspace (c : Char) : Bool :=
  c = ' ' || c = '\n' || c = '\t' || c = '\x0b' || c = '\r' || c = '\x0c'

/-- Function `toupper` of `<cctype>` in the "C" locale. -/
def toupper (c : Char) : Char :=
  if 97 ≤ c.toNat ∧ c.toNat ≤ 122 then Char.ofNat (c.toNat - 32) else c

/-- Function `isdigit` of `<cctype>`. -/
def isdigit (c : Char) : Bool := decide (48 ≤ c.toNat ∧ c.toNat ≤ 57)

/-! ## `std::map<std::string,std::string>` -/

/-- Entries of a `std::map<std::string,std::string>`, listed in iteration order. -/
abbrev StdMap := List (String × String)

namespace StdMap

/-- Result of `m.find(key)`: `none` is `m.end()`, `some v` is `p->second`. -/
def find : StdMap → String → Option String
  | [], _ => none
  | (k, v) :: rest, key => if key = k then some v else find rest key

/-- Effect of `m[key] = v`: the entry of `key` is replaced, or a new entry is
inserted at its place in key order. -/
def assign : StdMap → String → String → StdMap
  | [], key, v => [(key, v)]
  | (k, w) :: rest, key, v =>
    if key = k then (key, v) :: rest
    else if strLess key.data k.data then (key, v) :: (k, w) :: rest
    else (k, w) :: assign rest key v

/-- Effect of `m.erase(key)`. -/
def erase : StdMap → String → StdMap
  | [], _ => []
  | (k, w) :: rest, key => if key = k then rest else (k, w) :: erase rest key

/-- Class invariant of `std::map`: keys strictly increasing, hence unique. -/
def Ordered (m : StdMap) : Prop := m.Pairwise (fun a b => strLess a.1.data b.1.data = true)

instance (m : StdMap) : Decidable (Ordered m) := by
  unfold Ordered; infer_instance

end StdMap

/-! ## Exception types and object state -/

/-- Exception `ConfigFile::file_not_found`. -/
structure file_not_found where
  filename : String
  deriving DecidableEq, Repr

/-- Exception `ConfigFile::key_not_found`, thrown only by `read(key)`. -/
structure key_not_found where
  key : String
  deriving DecidableEq, Repr

end ConfigFile

/-- Data members of a `ConfigFile` object. -/
structure ConfigFile where
  myDelimiter : String
  myComment : String
  mySentry : String
  myContents : ConfigFile.StdMap
  deriving DecidableEq, Repr

namespace ConfigFile

/-! ## Conversions between `T` and `std::string` -/

/-- The instantiations `T_as_string<T>` and `string_as_T<T>` that the member
templates of `ConfigFile` call for a type `T`. -/
class Conv (T : Type) where
  T_as_string : T → String
  string_as_T : String → T

export Conv (T_as_string string_as_T)

/-- Generic `T_as_string<T>`: `ost << t; return ost.str();`, where `put t` is
what `operator<<` of `T` writes for `t`. -/
def T_as_string_generic {T : Type} (put : T → String) (t : T) : String := put t

/-- Generic `string_as_T<T>`: `T t; ist >> t; return t;`, where `init` is the
value of the local `T t;` and `get t s` the value `operator>>` of `T` leaves
in `t` on a stream holding `s`. -/
def string_as_T_generic {T : Type} (get : T → String → T) (init : T) (s : String) : T :=
  get init s

/-- Specialisation `string_as_T<std::string>`: the string itself. -/
def string_as_T_string (s : String) : String := s

/-- Specialisation `string_as_T<bool>`. -/
def string_as_T_bool (s : String) : Bool :=
  let sup : String := ⟨s.data.map toupper⟩
  if sup = "FALSE" ∨ sup = "F" ∨ sup = "NO" ∨ sup = "N" ∨ sup = "0" ∨ sup = "NONE" then false
  else true

/-- Conversions of a type that has no specialisation, from its stream operators. -/
def Conv.ofStream {T : Type} (put : T → String) (get : T → String → T) (init : T) : Conv T :=
  ⟨T_as_string_generic put, string_as_T_generic get init⟩

/-- Conversions of `std::string`: `ost << s` writes `s`, reading is specialised. -/
instance : Conv String := ⟨T_as_string_generic (fun s => s), string_as_T_string⟩

/-- Conversions of `bool`: `ost << b` writes `1` or `0`, reading is specialised. -/
instance : Conv Bool :=
  ⟨T_as_string_generic (fun b => if b then "1" else "0"), string_as_T_bool⟩

/-- Two characters that are equal or are the two cases of one letter. -/
def sameLetter (c d : Char) : Bool :=
  c = d ||
  (decide (65 ≤ c.toNat ∧ c.toNat ≤ 90) && d.toNat = c.toNat + 32) ||
  (decide (65 ≤ d.toNat ∧ d.toNat ≤ 90) && c.toNat = d.toNat + 32)

/-- Case-insensitive comparison of two strings, as the spec words the boolean
vocabulary: same length, and the same letter up to case at each position. -/
def eqIgnoreCase : List Char → List Char → Bool
  | [], [] => true
  | c :: cs, d :: ds => sameLetter c d && eqIgnoreCase cs ds
  | _, _ => false

/-- The vocabulary that the spec lists as reading false. -/
def falseWords : List String := ["false", "f", "no", "n", "0", "none"]

/-! ### `int` through the stream operators of the standard library -/

/-- Largest value of a 32-bit `int`. -/
def INT_MAX : Int := 2147483647

/-- Smallest value of a 32-bit `int`. -/
def INT_MIN : Int := -2147483648

/-- Character of the decimal digit `d`. -/
def digitChar (d : Nat) : Char := Char.ofNat (48 + d)

/-- Decimal digits of `n`, most significant first, put in front of `acc`;
`fuel` bounds the number of digits. -/
def putDigits : Nat → Nat → List Char → List Char
  | 0, _, acc => acc
  | fuel + 1, n, acc =>
    if n / 10 = 0 then digitChar (n % 10) :: acc
    else putDigits fuel (n / 10) (digitChar (n % 10) :: acc)

/-- Characters written by `ost << n` for an `int` (default flags, "C" locale). -/
def put_int (n : Int) : String :=
  if n < 0 then ⟨'-' :: putDigits (n.natAbs + 1) n.natAbs []⟩
  else ⟨putDigits (n.natAbs + 1) n.natAbs []⟩

/-- Value of a run of decimal digits. -/
def digitsValue (ds : List Char) : Nat :=
  ds.foldl (fun acc c => acc * 10 + (c.toNat - 48)) 0

/-- Value of `t` after `ist >> t` for an `int` (C++11 rules): leading
whitespace is skipped; at end of input `t` keeps its value; an optional sign
and the longest run of digits are read; without a digit `t` becomes 0; a value
out of range is replaced by the nearest bound. -/
def get_int (t : Int) (s : String) : Int :=
  match s.data.dropWhile isspace with
  | [] => t
  | c :: rest =>
    let body := if c = '-' ∨ c = '+' then rest else c :: rest
    let ds := body.takeWhile isdigit
    if ds = [] then 0
    else
      let v : Int := if c = '-' then -(digitsValue ds : Int) else (digitsValue ds : Int)
      if v < INT_MIN then INT_MIN else if INT_MAX < v then INT_MAX else v

/-- Conversions of `int`; `t0` is the indeterminate content of the
uninitialised local `T t;` of `string_as_T`. -/
def intConv (t0 : Int) : Conv Int := Conv.ofStream put_int get_int t0

/-! ## Member functions -/

/-- Modelled from the spec: `trim` is declared in the header and defined
outside it; it removes the leading and the trailing whitespace of `s`
(whitespace being the characters of `isspace`). -/
def trim (s : String) : String :=
  ⟨((s.data.dropWhile isspace).reverse.dropWhile isspace).reverse⟩

/-- Member `read<T>(key)`: throws `key_not_found(key)` when `find` gives `end()`. -/
def read (T : Type) [Conv T] (cf : ConfigFile) (key : String) : Except key_not_found T :=
  match cf.myContents.find key with
  | none => Except.error ⟨key⟩
  | some second => Except.ok (string_as_T second)

/-- Member `read<T>(key, value)`. -/
def readDefault {T : Type} [Conv T] (cf : ConfigFile) (key : String) (value : T) : T :=
  match cf.myContents.find key with
  | none => value
  | some second => string_as_T second

/-- Member `readInto(var, key)`: the returned flag and the content of `var`
after the call. -/
def readInto {T : Type} [Conv T] (cf : ConfigFile) (var : T) (key : String) : Bool × T :=
  let p := cf.myContents.find key
  let found := p.isSome
  match p with
  | some second => (found, string_as_T second)
  | none => (found, var)

/-- Member `readInto(var, key, value)`: the returned flag and the content of
`var` after the call. -/
def readIntoDefault {T : Type} [Conv T] (cf : ConfigFile) (_var : T) (key : String)
    (value : T) : Bool × T :=
  let p := cf.myContents.find key
  let found := p.isSome
  match p with
  | some second => (found, string_as_T second)
  | none => (found, value)

/-- Member `add(key, value)`. -/
def add {T : Type} [Conv T] (cf : ConfigFile) (key : String) (value : T) : ConfigFile :=
  let v := T_as_string value
  let key := trim key
  let v := trim v
  ⟨cf.myDelimiter, cf.myComment, cf.mySentry, cf.myContents.assign key v⟩

/-- Modelled from the spec: `remove` is declared in the header and defined
outside it; it deletes the entry of `key` if present and does nothing
otherwise. -/
def remove (cf : ConfigFile) (key : String) : ConfigFile :=
  ⟨cf.myDelimiter, cf.myComment, cf.mySentry, cf.myContents.erase key⟩

/-- States reached by `add` and `remove` calls on a default-constructed object.
Modelled from the spec: the default constructor is declared in the header and
defined outside it; it leaves the store empty (the syntax strings it sets are
not constrained here). -/
inductive Reachable : ConfigFile → Prop
  | init (delimiter comment sentry : String) : Reachable ⟨delimiter, comment, sentry, []⟩
  | add {T : Type} [Conv T] {cf : ConfigFile} (key : String) (value : T) :
      Reachable cf → Reachable (ConfigFile.add cf key value)
  | remove {cf : ConfigFile} (key : String) :
      Reachable cf → Reachable (ConfigFile.remove cf key)

/-- A string without leading and without trailing whitespace character. -/
def Trimmed (s : String) : Prop :=
  (∀ c, s.data.head? = some c → isspace c = false) ∧
  (∀ c, s.data.getLast? = some c → isspace c = false)

/-- Member `getDelimiter()`. -/
def getDelimiter (cf : ConfigFile) : String := cf.myDelimiter

/-- Member `getComment()`. -/
def getComment (cf : ConfigFile) : String := cf.myComment

/-- Member `getSentry()`. -/
def getSentry (cf : ConfigFile) : String := cf.mySentry

/-- Member `setDelimiter(s)`: the returned string and the object after the call. -/
def setDelimiter (cf : ConfigFile) (s : String) : String × ConfigFile :=
  let old := cf.myDelimiter
  (old, ⟨s, cf.myComment, cf.mySentry, cf.myContents⟩)

/-- Member `setComment(s)`: the returned string and the object after the call. -/
def setComment (cf : ConfigFile) (s : String) : String × ConfigFile :=
  let old := cf.myComment
  (old, ⟨cf.myDelimiter, s, cf.mySentry, cf.myContents⟩)

/-- Modelled from the spec: `keyExists` is declared in the header and defined
outside it; it returns the presence of `key` in the store as a boolean. -/
def keyExists (cf : ConfigFile) (key : String) : Bool :=
  (cf.myContents.find key).isSome

/-! ## Reading and writing the whole store -/

/-- Member `std::string::find(pat)`: index of the first occurrence of `pat`,
`none` standing for `npos`. -/
def findPos (pat : List Char) : List Char → Option Nat
  | [] => if pat = [] then some 0 else none
  | c :: cs =>
    if pat.isPrefixOf (c :: cs) then some 0 else (findPos pat cs).map (fun i => i + 1)

/-- Lines that successive `std::getline` calls deliver: the text is cut at
each newline, and nothing follows the last newline; `cur` holds the characters
of the line being read. -/
def linesFrom : List Char → List Char → List String
  | cur, [] => if cur = [] then [] else [⟨cur⟩]
  | cur, c :: cs => if c = '\n' then ⟨cur⟩ :: linesFrom [] cs else linesFrom (cur ++ [c]) cs

/-- Lines of a text. -/
def getlines (text : String) : List String := linesFrom [] text.data

/-- Modelled from the spec: step 1 of the construction contract, "strips
everything from the first occurrence of the comment marker onward". -/
def stripComment (comment line : String) : String :=
  match findPos comment.data line.data with
  | some i => ⟨line.data.take i⟩
  | none => line

/-- Modelled from the spec: step 4 of the construction contract, "splits the
remaining text on the first occurrence of the delimiter into key and value";
`none` when the text holds no delimiter. -/
def splitDelimiter (delimiter text : String) : Option (String × String) :=
  match findPos delimiter.data text.data with
  | some i => some (⟨text.data.take i⟩, ⟨text.data.drop (i + delimiter.data.length)⟩)
  | none => none

/-- State of the parse loop: the store, and the logical line that a
continuation line would extend (its stored key and its value text so far),
if any. -/
structure ParseState where
  contents : StdMap
  pending : Option (String × String)
  deriving DecidableEq, Repr

/-- Modelled from the spec: the parsing code is defined outside the header;
this is the treatment of one line by the six steps of the construction
contract. The result is `none` when the line is the sentry. A blank line
closes the value being read; a line without delimiter continues the value of
the key/value line it follows (glossary, "continuation line") by a newline and
its text, and is ignored as a free comment when no value is open; the value
is trimmed as a whole when stored. -/
def parseLine (delimiter comment sentry : String) (st : ParseState) (line : String) :
    Option ParseState :=
  let text := stripComment comment line
  if trim text = "" then some ⟨st.contents, none⟩
  else if trim text = sentry then none
  else
    match splitDelimiter delimiter text with
    | some (key, value) =>
      some ⟨st.contents.assign (trim key) (trim value), some (trim key, value)⟩
    | none =>
      match st.pending with
      | none => some st
      | some (key, value) =>
        let value2 : String := ⟨value.data ++ '\n' :: text.data⟩
        some ⟨st.contents.assign key (trim value2), some (key, value2)⟩

/-- Modelled from the spec: the parse loop over the lines of the input, which
stops at the sentry; the result is the store. -/
def parseLines (delimiter comment sentry : String) : List String → ParseState → StdMap
  | [], st => st.contents
  | line :: rest, st =>
    match parseLine delimiter comment sentry st line with
    | none => st.contents
    | some st2 => parseLines delimiter comment sentry rest st2

/-- Modelled from the spec: `operator>>`, declared in the header and defined
outside it, reloads the store from a stream "using the same parsing rules as
construction", with the syntax strings of the object. -/
def streamIn (cf : ConfigFile) (text : String) : ConfigFile :=
  ⟨cf.myDelimiter, cf.myComment, cf.mySentry,
    parseLines cf.myDelimiter cf.myComment cf.mySentry (getlines text) ⟨cf.myContents, none⟩⟩

/-- Modelled from the spec: the constructor from a file, declared in the header
and defined outside it; `file` is the content of the file `filename`, `none`
when it cannot be opened, which throws `file_not_found(filename)`. -/
def construct (filename : String) (file : Option String) (delimiter comment sentry : String) :
    Except file_not_found ConfigFile :=
  match file with
  | none => Except.error ⟨filename⟩
  | some text => Except.ok (streamIn ⟨delimiter, comment, sentry, []⟩ text)

/-- Modelled from the spec: `operator<<`, declared in the header and defined
outside it, renders the store as "one `key<delimiter>value` per line", in the
iteration order of the map. -/
def streamOut (cf : ConfigFile) : String :=
  ⟨(cf.myContents.map
      (fun e => e.1.data ++ cf.myDelimiter.data ++ e.2.data ++ ['\n'])).flatten⟩

/-- A line made of a key, the delimiter and a value, followed or not by the
comment marker and some text. -/
def keyValueLine (delimiter comment key value : String) (tail : Option String) : String :=
  match tail with
  | none => ⟨key.data ++ delimiter.data ++ value.data⟩
  | some t => ⟨key.data ++ delimiter.data ++ value.data ++ comment.data ++ t.data⟩

/-- First line of a text and its further lines, the text being cut at every
newline. -/
def pieces : List Char → List Char × List (List Char)
  | [] => ([], [])
  | c :: cs => if c = '\n' then ([], (pieces cs).1 :: (pieces cs).2)
    else (c :: (pieces cs).1, (pieces cs).2)

/-- Lines that the written text of an entry consists of: the key, the delimiter
and the first line of the value, then the further lines of the value. -/
def entryLines (delimiter : String) (e : String × String) : List String :=
  ⟨e.1.data ++ delimiter.data ++ (pieces e.2.data).1⟩ :: (pieces e.2.data).2.map String.mk

/-- An entry whose written lines the parse loop reads back as that entry: key
and value are trimmed and the key holds no newline; the first line holds no
comment marker, holds the delimiter first right after the key, and is neither
blank nor the sentry; each further line of the value holds neither the
comment marker nor the delimiter and is neither blank nor the sentry. -/
def Reloadable (delimiter comment sentry : String) (e : String × String) : Prop :=
  trim e.1 = e.1 ∧ trim e.2 = e.2 ∧ '\n' ∉ e.1.data ∧
  ¬ comment.data <:+: e.1.data ++ delimiter.data ++ (pieces e.2.data).1 ∧
  ¬ delimiter.data <:+: e.1.data ++ delimiter.data.dropLast ∧
  trim ⟨e.1.data ++ delimiter.data ++ (pieces e.2.data).1⟩ ≠ "" ∧
  trim ⟨e.1.data ++ delimiter.data ++ (pieces e.2.data).1⟩ ≠ sentry ∧
  ∀ l ∈ (pieces e.2.data).2,
    ¬ comment.data <:+: l ∧ ¬ delimiter.data <:+: l ∧
      trim ⟨l⟩ ≠ "" ∧ trim ⟨l⟩ ≠ sentry

instance (delimiter comment sentry : String) (e : String × String) :
    Decidable (Reloadable delimiter comment sentry e) := by
  unfold Reloadable; infer_instance

end ConfigFile

/-! ## `main.cpp` -/

namespace Main

/-- Constant `std::string::npos`. -/
def npos : Nat := 2 ^ 64 - 1

/-- Member `std::string::erase(index, count)` for `index ≤ size()`: removes
`min(count, size() - index)` characters starting at `index`. -/
def erase (s : String) (index count : Nat) : String :=
  ⟨s.data.take index ++ s.data.drop (index + min count (s.data.length - index))⟩

/-- File name that `main` passes to the `ConfigFile` constructor, from the
argument vector (`argv[0]` included). With `argc < 1` only `executeError` runs
and `name` stays empty; `name.erase(0)` is `erase(0, npos)`, the second
parameter taking its default. The result is `none` when `argv[1]` is the
terminating null pointer. -/
def configFilename (argv : List String) : Option String :=
  let argc := argv.length
  let name : Option String :=
    if argc < 1 then some ""
    else (argv.get? 1).map (fun arg => erase arg 0 npos)
  name.map (fun n => "conf/" ++ n ++ ".conf")

/-- Function `WriteCallback(contents, size, nmemb, userp)`: the returned count
and the string `*userp` after the call; `contents` lists the bytes found at
the pointer, of which `append` takes `size * nmemb`. -/
def WriteCallback (contents : List Char) (size nmemb : Nat) (userp : String) : Nat × String :=
  let appended : String := ⟨userp.data ++ contents.take (size * nmemb)⟩
  let withNewline : String := ⟨appended.data ++ ['\n']⟩
  (size * nmemb, withNewline)

/-- Delivery of the response body by `curl_easy_perform`: the write function
is called once per chunk, with `size` 1 and `nmemb` the length of the chunk,
on the buffer registered with `CURLOPT_WRITEDATA`; the transfer is aborted
when the function returns another count than it was given. -/
def deliver : List String → String → String
  | [], buffer => buffer
  | chunk :: rest, buffer =>
    let r := WriteCallback chunk.data 1 chunk.data.length buffer
    if r.1 = 1 * chunk.data.length then deliver rest r.2 else r.2

/-- Content of `readBuffer` when `main` prints it: the buffer starts empty and
receives the chunks of the one request. -/
def printedBuffer (chunks : List String) : String := deliver chunks ""

end Main

namespace ConfigFile

/-! ## Lemmas on the string order -/

theorem strLess_irrefl (a : List Char) : strLess a a = false := by
  induction a with
  | nil => rfl
  | cons c cs ih => simp [strLess, ih]

theorem strLess_trans : ∀ (a b c : List Char),
    strLess a b = true → strLess b c = true → strLess a c = true
  | _, [], _, hab, _ => by simp [strLess] at hab
  | _, _ :: _, [], _, hbc => by simp [strLess] at hbc
  | [], _ :: _, _ :: _, _, _ => by simp [strLess]
  | x :: xs, y :: ys, z :: zs, hab, hbc => by
    simp only [strLess] at hab hbc ⊢
    by_cases hxy : x < y
    · by_cases hyz : y < z
      · simp [lt_trans hxy hyz]
      · by_cases hzy : z < y
        · simp [hyz, hzy] at hbc
        · have hyz' : y = z := le_antisymm (not_lt.mp hzy) (not_lt.mp hyz)
          subst hyz'
          simp [hxy]
    · by_cases hyx : y < x
      · simp [hxy, hyx] at hab
      · have hxy' : x = y := le_antisymm (not_lt.mp hyx) (not_lt.mp hxy)
        subst hxy'
        simp only [hxy, if_false] at hab
        by_cases hxz : x < z
        · simp [hxz]
        · by_cases hzx : z < x
          · simp [hxz, hzx] at hbc
          · simp only [hxz, hzx, if_false] at hbc ⊢
            exact strLess_trans xs ys zs hab hbc

theorem strLess_total : ∀ (a b : List Char),
    strLess a b = false → a ≠ b → strLess b a = true
  | [], [], _, hne => absurd rfl hne
  | [], _ :: _, h, _ => by simp [strLess] at h
  | _ :: _, [], _, _ => by simp [strLess]
  | x :: xs, y :: ys, h, hne => by
    simp only [strLess] at h ⊢
    by_cases hxy : x < y
    · simp [hxy] at h
    · by_cases hyx : y < x
      · simp [hyx]
      · have hxy' : x = y := le_antisymm (not_lt.mp hyx) (not_lt.mp hxy)
        subst hxy'
        simp only [hxy, if_false] at h ⊢
        exact strLess_total xs ys h (fun e => hne (by rw [e]))

namespace StdMap

/-! ## Lemmas on the map operations -/

theorem find_eq_none_iff (m : StdMap) (key : String) :
    find m key = none ↔ ∀ v, (key, v) ∉ m := by
  induction m with
  | nil => simp [find]
  | cons e rest ih =>
    obtain ⟨k, w⟩ := e
    by_cases h : key = k
    · subst h
      simp only [find, if_true]
      constructor
      · intro h; cases h
      · intro h; exact absurd (List.mem_cons_self _ _) (h w)
    · simp only [find, h, if_false, ih, List.mem_cons, Prod.mk.injEq, false_and, false_or]

theorem mem_of_find_eq_some (m : StdMap) (key v : String) (h : find m key = some v) :
    (key, v) ∈ m := by
  induction m with
  | nil => simp [find] at h
  | cons e rest ih =>
    obtain ⟨k, w⟩ := e
    by_cases hk : key = k
    · subst hk
      simp only [find, if_true, Option.some.injEq] at h
      subst h
      exact List.mem_cons_self _ _
    · simp only [find, hk, if_false] at h
      exact List.mem_cons_of_mem _ (ih h)

theorem find_eq_some_iff (m : StdMap) (hm : Ordered m) (key v : String) :
    find m key = some v ↔ (key, v) ∈ m := by
  refine ⟨mem_of_find_eq_some m key v, ?_⟩
  induction m with
  | nil => intro h; cases h
  | cons e rest ih =>
    obtain ⟨k, w⟩ := e
    intro h
    have hm' := List.pairwise_cons.mp hm
    by_cases hk : key = k
    · subst hk
      simp only [find, if_true, Option.some.injEq]
      rcases List.mem_cons.mp h with h | h
      · exact (Prod.mk.inj h).2.symm
      · have := hm'.1 _ h
        simp [strLess_irrefl] at this
    · simp only [find, hk, if_false]
      rcases List.mem_cons.mp h with h | h
      · exact absurd (Prod.mk.inj h).1 hk
      · exact ih hm'.2 h

theorem find_assign_self (m : StdMap) (key v : String) :
    find (assign m key v) key = some v := by
  induction m with
  | nil => simp [assign, find]
  | cons e rest ih =>
    obtain ⟨k, w⟩ := e
    by_cases hk : key = k
    · simp [assign, find, hk]
    · by_cases hl : strLess key.data k.data = true
      · simp [assign, find, hk, hl]
      · simp [assign, find, hk, hl, ih]

theorem find_assign_of_ne (m : StdMap) (key v other : String) (h : other ≠ key) :
    find (assign m key v) other = find m other := by
  induction m with
  | nil => simp [assign, find, h]
  | cons e rest ih =>
    obtain ⟨k, w⟩ := e
    by_cases hk : key = k
    · subst hk
      simp [assign, find, h]
    · by_cases hl : strLess key.data k.data = true
      · simp [assign, find, hk, hl, h]
      · simp [assign, find, hk, hl, ih]

theorem mem_assign_cases (m : StdMap) (key v : String) (e : String × String)
    (h : e ∈ assign m key v) : e = (key, v) ∨ e ∈ m := by
  induction m with
  | nil => simpa [assign] using h
  | cons e' rest ih =>
    obtain ⟨k, w⟩ := e'
    by_cases hk : key = k
    · simp only [assign, hk, if_true, List.mem_cons] at h ⊢
      rcases h with h | h
      · exact Or.inl h
      · exact Or.inr (Or.inr h)
    · by_cases hl : strLess key.data k.data = true
      · simpa [assign, hk, hl] using h
      · have hl' : strLess key.data k.data = false := by simpa using hl
        simp only [assign, hk, hl', if_false, Bool.false_eq_true, List.mem_cons] at h ⊢
        rcases h with h | h
        · exact Or.inr (Or.inl h)
        · rcases ih h with h | h
          · exact Or.inl h
          · exact Or.inr (Or.inr h)

theorem ordered_assign (m : StdMap) (hm : Ordered m) (key v : String) :
    Ordered (assign m key v) := by
  induction m with
  | nil => simp [assign, Ordered]
  | cons e rest ih =>
    obtain ⟨k, w⟩ := e
    have hm' := List.pairwise_cons.mp hm
    by_cases hk : key = k
    · subst hk
      simp only [assign, if_true]
      exact List.pairwise_cons.mpr ⟨fun a ha => hm'.1 a ha, hm'.2⟩
    · by_cases hl : strLess key.data k.data = true
      · simp only [assign, hk, hl, if_true, if_false]
        refine List.pairwise_cons.mpr ⟨?_, hm⟩
        intro a ha
        rcases List.mem_cons.mp ha with ha | ha
        · subst ha; exact hl
        · exact strLess_trans _ _ _ hl (hm'.1 a ha)
      · have hl' : strLess key.data k.data = false := by simpa using hl
        simp only [assign, hk, hl', if_false, Bool.false_eq_true]
        refine List.pairwise_cons.mpr ⟨?_, ih hm'.2⟩
        intro a ha
        rcases mem_assign_cases rest key v a ha with ha | ha
        · subst ha
          refine strLess_total _ _ hl' ?_
          intro hd
          exact hk (String.ext hd)
        · exact hm'.1 a ha

theorem mem_erase_subset (m : StdMap) (key : String) (e : String × String)
    (h : e ∈ erase m key) : e ∈ m := by
  induction m with
  | nil => simp [erase] at h
  | cons e' rest ih =>
    obtain ⟨k, w⟩ := e'
    by_cases hk : key = k
    · simp only [erase, hk, if_true] at h
      exact List.mem_cons_of_mem _ h
    · simp only [erase, hk, if_false, List.mem_cons] at h ⊢
      rcases h with h | h
      · exact Or.inl h
      · exact Or.inr (ih h)

theorem ordered_erase (m : StdMap) (hm : Ordered m) (key : String) :
    Ordered (erase m key) := by
  induction m with
  | nil => simp [erase, Ordered]
  | cons e rest ih =>
    obtain ⟨k, w⟩ := e
    have hm' := List.pairwise_cons.mp hm
    by_cases hk : key = k
    · simp only [erase, hk, if_true]
      exact hm'.2
    · simp only [erase, hk, if_false]
      exact List.pairwise_cons.mpr
        ⟨fun a ha => hm'.1 a (mem_erase_subset rest key a ha), ih hm'.2⟩

end StdMap

/-! ## The boolean conversion -/

theorem char_eq_iff_toNat (c d : Char) : c = d ↔ c.toNat = d.toNat := by
  constructor
  · intro h; rw [h]
  · intro h
    rw [← Char.ofNat_toNat c, ← Char.ofNat_toNat d, h]

theorem toNat_ofNat_small (n : Nat) (h : n < 128) : (Char.ofNat n).toNat = n := by
  interval_cases n <;> rfl

theorem toupper_toNat (c : Char) :
    (toupper c).toNat = if 97 ≤ c.toNat ∧ c.toNat ≤ 122 then c.toNat - 32 else c.toNat := by
  unfold toupper
  by_cases h : 97 ≤ c.toNat ∧ c.toNat ≤ 122
  · rw [if_pos h, if_pos h]
    exact toNat_ofNat_small _ (by omega)
  · rw [if_neg h, if_neg h]

theorem toupper_eq_iff (c d : Char) : toupper c = toupper d ↔ sameLetter c d = true := by
  rw [char_eq_iff_toNat, toupper_toNat, toupper_toNat]
  unfold sameLetter
  simp only [Bool.or_eq_true, Bool.and_eq_true, decide_eq_true_eq, char_eq_iff_toNat c d]
  split_ifs <;> omega

theorem map_toupper_eq_iff : ∀ (s w : List Char),
    s.map toupper = w.map toupper ↔ eqIgnoreCase s w = true
  | [], [] => by simp [eqIgnoreCase]
  | [], _ :: _ => by simp [eqIgnoreCase]
  | _ :: _, [] => by simp [eqIgnoreCase]
  | c :: cs, d :: ds => by
    simp only [List.map_cons, List.cons.injEq, eqIgnoreCase, Bool.and_eq_true,
      toupper_eq_iff, map_toupper_eq_iff cs ds]

theorem upper_eq_iff (s : String) (w : String) :
    (⟨s.data.map toupper⟩ : String) = ⟨w.data.map toupper⟩ ↔
      eqIgnoreCase s.data w.data = true := by
  rw [← map_toupper_eq_iff]
  constructor
  · intro h; exact congrArg String.data h
  · intro h; rw [h]

/-- C5: `string_as_T<bool>(s)` is false exactly when `s` is, up to the case of
its letters, one of `false`, `f`, `no`, `n`, `0`, `none`; the empty string and
those words with surrounding whitespace read as true, a stored `true` reads as
true and a stored `no` as false. -/
theorem string_as_T_bool_vocabulary :
    (∀ s : String,
      string_as_T_bool s = false ↔ ∃ w ∈ falseWords, eqIgnoreCase s.data w.data = true) ∧
    string_as_T_bool "" = true ∧ string_as_T_bool " no" = true ∧
    string_as_T_bool "false " = true ∧ string_as_T_bool "\tn\n" = true ∧
    string_as_T_bool "true" = true ∧ string_as_T_bool "no" = false ∧
    readDefault ⟨"=", "#", "EndConfigFile", [("sale", "true")]⟩ "sale" false = true ∧
    readDefault ⟨"=", "#", "EndConfigFile", [("sale", "no")]⟩ "sale" false = false := by
  refine ⟨?_, by decide, by decide, by decide, by decide, by decide, by decide,
    by decide, by decide⟩
  intro s
  have h1 := upper_eq_iff s "false"
  have h2 := upper_eq_iff s "f"
  have h3 := upper_eq_iff s "no"
  have h4 := upper_eq_iff s "n"
  have h5 := upper_eq_iff s "0"
  have h6 := upper_eq_iff s "none"
  have e1 : (⟨"false".data.map toupper⟩ : String) = "FALSE" := by decide
  have e2 : (⟨"f".data.map toupper⟩ : String) = "F" := by decide
  have e3 : (⟨"no".data.map toupper⟩ : String) = "NO" := by decide
  have e4 : (⟨"n".data.map toupper⟩ : String) = "N" := by decide
  have e5 : (⟨"0".data.map toupper⟩ : String) = "0" := by decide
  have e6 : (⟨"none".data.map toupper⟩ : String) = "NONE" := by decide
  rw [e1] at h1
  rw [e2] at h2
  rw [e3] at h3
  rw [e4] at h4
  rw [e5] at h5
  rw [e6] at h6
  unfold string_as_T_bool
  simp only [falseWords, List.mem_cons, List.mem_singleton, exists_eq_or_imp, exists_eq_left,
    ← h1, ← h2, ← h3, ← h4, ← h5, ← h6, List.not_mem_nil, false_and, exists_false, or_false]
  split_ifs with h
  · simp only [true_iff]; exact h
  · simp only [Bool.true_eq_false, false_iff]; exact h

/-! ## `trim` -/

theorem dropWhile_eq_self_of_head {p : Char → Bool} (l : List Char)
    (h : ∀ c, l.head? = some c → p c = false) : l.dropWhile p = l := by
  cases l with
  | nil => rfl
  | cons a as =>
    have ha : p a = false := h a rfl
    simp [List.dropWhile_cons, ha]

theorem trim_trimmed (s : String) : Trimmed (trim s) := by
  constructor
  · intro c hc
    have hpre : ((s.data.dropWhile isspace).reverse.dropWhile isspace).reverse
        <+: s.data.dropWhile isspace := List.rdropWhile_prefix isspace _
    obtain ⟨t, ht⟩ := hpre
    have hd : (trim s).data =
        ((s.data.dropWhile isspace).reverse.dropWhile isspace).reverse := rfl
    rw [hd] at hc
    have hh : (s.data.dropWhile isspace).head? = some c := by
      rw [← ht]
      cases hr : ((s.data.dropWhile isspace).reverse.dropWhile isspace).reverse with
      | nil => rw [hr] at hc; cases hc
      | cons a as =>
        rw [hr] at hc
        simpa using hc
    have := List.head?_dropWhile_not isspace s.data
    rw [hh] at this
    simpa using this
  · intro c hc
    have hd : (trim s).data =
        ((s.data.dropWhile isspace).reverse.dropWhile isspace).reverse := rfl
    rw [hd, List.getLast?_reverse] at hc
    have := List.head?_dropWhile_not isspace (s.data.dropWhile isspace).reverse
    rw [hc] at this
    simpa using this

theorem trim_eq_self_of_trimmed (s : String) (h : Trimmed s) : trim s = s := by
  have h1 : s.data.dropWhile isspace = s.data := dropWhile_eq_self_of_head _ h.1
  have h2 : s.data.reverse.dropWhile isspace = s.data.reverse :=
    dropWhile_eq_self_of_head _ (by
      intro c hc
      rw [List.head?_reverse] at hc
      exact h.2 c hc)
  apply String.ext
  show ((s.data.dropWhile isspace).reverse.dropWhile isspace).reverse = s.data
  rw [h1, h2, List.reverse_reverse]

theorem trimmed_of_no_space (s : String) (h : ∀ c ∈ s.data, isspace c = false) :
    Trimmed s :=
  ⟨fun c hc => h c (List.mem_of_mem_head? hc), fun c hc => h c (List.mem_of_mem_getLast? hc)⟩

/-! ## The store invariant -/

/-- C7: in every state reached from the empty store of the default constructor
by `add` and `remove` calls, each key and each value of the store has no
leading and no trailing whitespace character. -/
theorem reachable_store_trimmed (cf : ConfigFile) (h : Reachable cf) :
    ∀ e ∈ cf.myContents, Trimmed e.1 ∧ Trimmed e.2 := by
  induction h with
  | init d c s => intro e he; cases he
  | add key value _ ih =>
    intro e he
    rcases StdMap.mem_assign_cases _ _ _ e he with h | h
    · rw [h]
      exact ⟨trim_trimmed _, trim_trimmed _⟩
    · exact ih e h
  | remove key _ ih =>
    intro e he
    exact ih e (StdMap.mem_erase_subset _ _ e he)

/-- Witness of C7: `add(" apples ", " 7\n")`, `add("pears", true)`,
`remove("plums")` on the empty store. -/
theorem reachable_store_trimmed_witness :
    Reachable (remove (add (add ⟨"=", "#", "", []⟩ " apples " " 7\n") "pears" true) "plums") ∧
    ∀ e ∈ (remove (add (add ⟨"=", "#", "", []⟩ " apples " " 7\n") "pears" true)
        "plums").myContents,
      Trimmed e.1 ∧ Trimmed e.2 :=
  ⟨Reachable.remove _ (Reachable.add _ _ (Reachable.add _ _ (Reachable.init _ _ _))),
   reachable_store_trimmed _
    (Reachable.remove _ (Reachable.add _ _ (Reachable.add _ _ (Reachable.init _ _ _))))⟩

/-! ## Writing and reading an `int` -/

theorem digitChar_toNat (d : Nat) (h : d < 10) : (digitChar d).toNat = 48 + d :=
  toNat_ofNat_small _ (by omega)

theorem isdigit_digitChar (d : Nat) (h : d < 10) : isdigit (digitChar d) = true := by
  unfold isdigit
  rw [digitChar_toNat d h]
  simp only [decide_eq_true_eq]
  omega

theorem isspace_false_of_toNat (c : Char) (h : 33 ≤ c.toNat) : isspace c = false := by
  unfold isspace
  simp only [Bool.or_eq_false_iff, decide_eq_false_iff_not, char_eq_iff_toNat]
  have e1 : ' '.toNat = 32 := rfl
  have e2 : '\n'.toNat = 10 := rfl
  have e3 : '\t'.toNat = 9 := rfl
  have e4 : '\x0b'.toNat = 11 := rfl
  have e5 : '\r'.toNat = 13 := rfl
  have e6 : '\x0c'.toNat = 12 := rfl
  rw [e1, e2, e3, e4, e5, e6]
  omega

theorem digitsValue_append (ds : List Char) (c : Char) :
    digitsValue (ds ++ [c]) = digitsValue ds * 10 + (c.toNat - 48) := by
  simp [digitsValue, List.foldl_append]

theorem putDigits_spec : ∀ (fuel n : Nat) (acc : List Char), n < fuel →
    ∃ ds : List Char, putDigits fuel n acc = ds ++ acc ∧ ds ≠ [] ∧
      (∀ c ∈ ds, isdigit c = true) ∧ digitsValue ds = n
  | 0, _, _, h => absurd h (Nat.not_lt_zero _)
  | fuel + 1, n, acc, h => by
    have hmod : n % 10 < 10 := Nat.mod_lt _ (by decide)
    by_cases hq : n / 10 = 0
    · refine ⟨[digitChar (n % 10)], ?_, by simp, ?_, ?_⟩
      · simp [putDigits, hq]
      · intro c hc
        rw [List.mem_singleton] at hc
        rw [hc]
        exact isdigit_digitChar _ hmod
      · simp only [digitsValue, List.foldl_cons, List.foldl_nil, digitChar_toNat _ hmod]
        omega
    · obtain ⟨ds, hds, _, hdig, hval⟩ :=
        putDigits_spec fuel (n / 10) (digitChar (n % 10) :: acc) (by omega)
      refine ⟨ds ++ [digitChar (n % 10)], ?_, by simp, ?_, ?_⟩
      · simp [putDigits, hq, hds]
      · intro c hc
        rcases List.mem_append.mp hc with hc | hc
        · exact hdig c hc
        · rw [List.mem_singleton] at hc
          rw [hc]
          exact isdigit_digitChar _ hmod
      · rw [digitsValue_append, hval, digitChar_toNat _ hmod]
        omega

theorem takeWhile_eq_self_of_all {p : Char → Bool} (l : List Char)
    (h : ∀ c ∈ l, p c = true) : l.takeWhile p = l := by
  induction l with
  | nil => rfl
  | cons a as ih =>
    rw [List.takeWhile_cons, h a (List.mem_cons_self _ _),
      ih (fun c hc => h c (List.mem_cons_of_mem _ hc))]
    rfl

theorem isdigit_bounds (c : Char) (h : isdigit c = true) : 48 ≤ c.toNat ∧ c.toNat ≤ 57 := by
  unfold isdigit at h
  simpa using h

theorem put_int_no_space (n : Int) : ∀ c ∈ (put_int n).data, isspace c = false := by
  obtain ⟨ds, hds, _, hdig, _⟩ := putDigits_spec (n.natAbs + 1) n.natAbs [] (Nat.lt_succ_self _)
  rw [List.append_nil] at hds
  intro c hc
  unfold put_int at hc
  rw [hds] at hc
  by_cases hn : n < 0
  · rw [if_pos hn] at hc
    rcases List.mem_cons.mp hc with hc | hc
    · rw [hc]; rfl
    · exact isspace_false_of_toNat c (by have := isdigit_bounds c (hdig c hc); omega)
  · rw [if_neg hn] at hc
    exact isspace_false_of_toNat c (by have := isdigit_bounds c (hdig c hc); omega)

theorem get_int_put_int (t : Int) (n : Int) (hlo : INT_MIN ≤ n) (hhi : n ≤ INT_MAX) :
    get_int t (put_int n) = n := by
  obtain ⟨ds, hds, hne, hdig, hval⟩ :=
    putDigits_spec (n.natAbs + 1) n.natAbs [] (Nat.lt_succ_self _)
  rw [List.append_nil] at hds
  have htw : ds.takeWhile isdigit = ds := takeWhile_eq_self_of_all ds hdig
  unfold INT_MIN at hlo
  unfold INT_MAX at hhi
  by_cases hn : n < 0
  · have hp : put_int n = ⟨'-' :: ds⟩ := by
      unfold put_int
      rw [if_pos hn, hds]
    have hv : -((digitsValue ds : Nat) : Int) = n := by rw [hval]; omega
    rw [hp]
    unfold get_int
    have hdw : ('-' :: ds).dropWhile isspace = '-' :: ds := by
      rw [List.dropWhile_cons_of_neg (by decide)]
    simp only [hdw, true_or, if_true, htw, hne, if_false, hv, INT_MIN, INT_MAX]
    rw [if_neg (by omega), if_neg (by omega)]
  · have hp : put_int n = ⟨ds⟩ := by
      unfold put_int
      rw [if_neg hn, hds]
    have hv : ((digitsValue ds : Nat) : Int) = n := by rw [hval]; omega
    rw [hp]
    unfold get_int
    cases ds with
    | nil => exact absurd rfl hne
    | cons d rest =>
      have hb := isdigit_bounds d (hdig d (List.mem_cons_self _ _))
      have hsp : isspace d = false := isspace_false_of_toNat d (by omega)
      have hdw : (d :: rest).dropWhile isspace = d :: rest := by
        rw [List.dropWhile_cons_of_neg (by simp [hsp])]
      have hm : ¬ d = '-' := by
        intro e; rw [e] at hb; revert hb; decide
      have hpl : ¬ d = '+' := by
        intro e; rw [e] at hb; revert hb; decide
      simp only [hdw, hm, hpl, or_self, if_false, htw, hv, INT_MIN, INT_MAX]
      rw [if_neg (by simp), if_neg (by omega), if_neg (by omega)]

/-- C8: after `add(k, n)` with a key without leading or trailing whitespace and
an `int` value `n`, the strict `read<int>(k)` succeeds with `n` and
`read(k, d)` gives `n` for every default `d`, whatever the store held before. -/
theorem add_read_int_roundtrip (t0 : Int) (cf : ConfigFile) (k : String) (hk : Trimmed k)
    (n : Int) (hlo : INT_MIN ≤ n) (hhi : n ≤ INT_MAX) :
    @read Int (intConv t0) (@add Int (intConv t0) cf k n) k = Except.ok n ∧
    ∀ d : Int, @readDefault Int (intConv t0) (@add Int (intConv t0) cf k n) k d = n := by
  have hv : trim (put_int n) = put_int n :=
    trim_eq_self_of_trimmed _ (trimmed_of_no_space _ (put_int_no_space n))
  have hf : (@add Int (intConv t0) cf k n).myContents.find k = some (put_int n) := by
    show (cf.myContents.assign (trim k) (trim (put_int n))).find k = some (put_int n)
    rw [trim_eq_self_of_trimmed k hk, hv]
    exact StdMap.find_assign_self cf.myContents k (put_int n)
  have hg : @string_as_T Int (intConv t0) (put_int n) = n := get_int_put_int t0 n hlo hhi
  constructor
  · unfold read
    rw [hf]
    show Except.ok (@string_as_T Int (intConv t0) (put_int n)) = Except.ok n
    rw [hg]
  · intro d
    unfold readDefault
    rw [hf]
    exact hg

/-- Witness of C8, the documented example: `add("zucchini", 12)` on the store
`apples = 7`, then `read<int>("zucchini")` and `read("zucchini", 0)`. -/
theorem add_read_int_roundtrip_witness :
    Trimmed "zucchini" ∧ INT_MIN ≤ 12 ∧ (12 : Int) ≤ INT_MAX ∧
    @read Int (intConv 0)
      (@add Int (intConv 0) ⟨"=", "#", "EndConfigFile", [("apples", "7")]⟩ "zucchini" 12)
      "zucchini" = Except.ok 12 ∧
    @readDefault Int (intConv 0)
      (@add Int (intConv 0) ⟨"=", "#", "EndConfigFile", [("apples", "7")]⟩ "zucchini" 12)
      "zucchini" 0 = 12 :=
  have hk : Trimmed "zucchini" := ⟨by intro c hc; cases hc; decide, by intro c hc; cases hc; decide⟩
  have h := add_read_int_roundtrip 0 ⟨"=", "#", "EndConfigFile", [("apples", "7")]⟩
    "zucchini" hk 12 (by decide) (by decide)
  ⟨hk, by decide, by decide, h.1, h.2 0⟩

/-! ## The lookup members -/

/-- C1: on a store with the map invariant, the strict `read<T>(key)` throws
exactly when no entry has the key, a thrown `key_not_found` carries the
requested key, and for a present key the result is `string_as_T<T>` of the
stored string. -/
theorem read_strict_contract (T : Type) [Conv T] (cf : ConfigFile)
    (hm : cf.myContents.Ordered) (key : String) :
    ((∃ e, read T cf key = Except.error e) ↔ ∀ v, (key, v) ∉ cf.myContents) ∧
    (∀ e, read T cf key = Except.error e → e.key = key) ∧
    (∀ v, (key, v) ∈ cf.myContents → read T cf key = Except.ok (string_as_T v)) := by
  refine ⟨?_, ?_, ?_⟩
  · rw [← StdMap.find_eq_none_iff]
    unfold read
    cases hf : cf.myContents.find key with
    | none => simp
    | some w => simp
  · intro e he
    unfold read at he
    cases hf : cf.myContents.find key with
    | none =>
      rw [hf] at he
      injection he with he
      rw [← he]
    | some w =>
      rw [hf] at he
      cases he
  · intro v hv
    unfold read
    rw [(StdMap.find_eq_some_iff _ hm key v).mpr hv]

/-- Witness of C1 on the one-entry store `sale = no`, read as `bool`. -/
theorem read_strict_contract_witness :
    StdMap.Ordered [("sale", "no")] ∧
    read Bool ⟨"=", "#", "EndConfigFile", [("sale", "no")]⟩ "sale"
      = Except.ok (string_as_T "no") :=
  ⟨by decide,
   (read_strict_contract Bool ⟨"=", "#", "EndConfigFile", [("sale", "no")]⟩
      (by decide) "sale").2.2 "no" (by decide)⟩

/-- C2: on a store with the map invariant, `read<T>(key, d)` is a total
function that gives `d` when no entry has the key and `string_as_T<T>` of the
stored string when one has. -/
theorem read_default_contract (T : Type) [Conv T] (cf : ConfigFile)
    (hm : cf.myContents.Ordered) (key : String) (d : T) :
    ((∀ v, (key, v) ∉ cf.myContents) → readDefault cf key d = d) ∧
    (∀ v, (key, v) ∈ cf.myContents → readDefault cf key d = string_as_T v) := by
  refine ⟨?_, ?_⟩
  · intro h
    unfold readDefault
    rw [(StdMap.find_eq_none_iff _ key).mpr h]
  · intro v hv
    unfold readDefault
    rw [(StdMap.find_eq_some_iff _ hm key v).mpr hv]

/-- Witness of C2 on the store `apples = 7`, asked for the absent `oranges`. -/
theorem read_default_contract_witness :
    StdMap.Ordered [("apples", "7")] ∧
    readDefault ⟨"=", "#", "EndConfigFile", [("apples", "7")]⟩ "oranges" "none" = "none" :=
  ⟨by decide,
   (read_default_contract String ⟨"=", "#", "EndConfigFile", [("apples", "7")]⟩
      (by decide) "oranges" "none").1 (by intro v hv; simp at hv)⟩

/-- C3: on a store with the map invariant, `readInto(var, key)` returns false
and leaves `var` as it was when no entry has the key, and returns true with
`var` set to `string_as_T<T>` of the stored string when one has. -/
theorem readInto_contract (T : Type) [Conv T] (cf : ConfigFile)
    (hm : cf.myContents.Ordered) (var : T) (key : String) :
    ((∀ v, (key, v) ∉ cf.myContents) → readInto cf var key = (false, var)) ∧
    (∀ v, (key, v) ∈ cf.myContents → readInto cf var key = (true, string_as_T v)) := by
  refine ⟨?_, ?_⟩
  · intro h
    unfold readInto
    rw [(StdMap.find_eq_none_iff _ key).mpr h]
    rfl
  · intro v hv
    unfold readInto
    rw [(StdMap.find_eq_some_iff _ hm key v).mpr hv]
    rfl

/-- Witness of C3 on the store `apples = 7`, asked for the absent `pommes`. -/
theorem readInto_contract_witness :
    StdMap.Ordered [("apples", "7")] ∧
    readInto ⟨"=", "#", "EndConfigFile", [("apples", "7")]⟩ "old" "pommes" = (false, "old") :=
  ⟨by decide,
   (readInto_contract String ⟨"=", "#", "EndConfigFile", [("apples", "7")]⟩
      (by decide) "old" "pommes").1 (by intro v hv; simp at hv)⟩

/-- C4: on a store with the map invariant, `readInto(var, key, d)` returns
false and sets `var` to `d` when no entry has the key, returns true and sets
`var` to `string_as_T<T>` of the stored string when one has, and the value
`var` had before has no influence on the outcome. -/
theorem readInto_default_contract (T : Type) [Conv T] (cf : ConfigFile)
    (hm : cf.myContents.Ordered) (var : T) (key : String) (d : T) :
    ((∀ v, (key, v) ∉ cf.myContents) → readIntoDefault cf var key d = (false, d)) ∧
    (∀ v, (key, v) ∈ cf.myContents →
      readIntoDefault cf var key d = (true, string_as_T v)) ∧
    (∀ var2 : T, readIntoDefault cf var2 key d = readIntoDefault cf var key d) := by
  refine ⟨?_, ?_, ?_⟩
  · intro h
    unfold readIntoDefault
    rw [(StdMap.find_eq_none_iff _ key).mpr h]
    rfl
  · intro v hv
    unfold readIntoDefault
    rw [(StdMap.find_eq_some_iff _ hm key v).mpr hv]
    rfl
  · intro var2
    rfl

/-- Witness of C4 on the store `apples = 7`, asked for the absent `oranges`. -/
theorem readInto_default_contract_witness :
    StdMap.Ordered [("apples", "7")] ∧
    readIntoDefault ⟨"=", "#", "EndConfigFile", [("apples", "7")]⟩ "old" "oranges" "0"
      = (false, "0") :=
  ⟨by decide,
   (readInto_default_contract String ⟨"=", "#", "EndConfigFile", [("apples", "7")]⟩
      (by decide) "old" "oranges" "0").1 (by intro v hv; simp at hv)⟩

/-! ## `add` -/

/-- C6: on a store with the map invariant, after `add(k, v)` the key `trim(k)`
has the single entry `trim(T_as_string(v))`, every other key finds what it
found before and has the entries it had before, and the map invariant still
holds. -/
theorem add_contract (T : Type) [Conv T] (cf : ConfigFile)
    (hm : cf.myContents.Ordered) (k : String) (v : T) :
    (add cf k v).myContents.find (trim k) = some (trim (T_as_string v)) ∧
    (∀ w, (trim k, w) ∈ (add cf k v).myContents ↔ w = trim (T_as_string v)) ∧
    (∀ k2, k2 ≠ trim k → (add cf k v).myContents.find k2 = cf.myContents.find k2) ∧
    (∀ k2 w, k2 ≠ trim k →
      ((k2, w) ∈ (add cf k v).myContents ↔ (k2, w) ∈ cf.myContents)) ∧
    (add cf k v).myContents.Ordered := by
  have ho : (add cf k v).myContents.Ordered := StdMap.ordered_assign _ hm _ _
  have hs : (add cf k v).myContents.find (trim k) = some (trim (T_as_string v)) :=
    StdMap.find_assign_self _ _ _
  have hn : ∀ k2, k2 ≠ trim k →
      (add cf k v).myContents.find k2 = cf.myContents.find k2 :=
    fun k2 h => StdMap.find_assign_of_ne _ _ _ k2 h
  refine ⟨hs, ?_, hn, ?_, ho⟩
  · intro w
    rw [← StdMap.find_eq_some_iff _ ho, hs]
    constructor
    · intro h; injection h with h; exact h.symm
    · intro h; rw [h]
  · intro k2 w h
    rw [← StdMap.find_eq_some_iff _ ho, ← StdMap.find_eq_some_iff _ hm, hn k2 h]

/-- Witness of C6: `add(" pears ", " 3 ")` on the store `apples = 7, pears = 1`. -/
theorem add_contract_witness :
    StdMap.Ordered [("apples", "7"), ("pears", "1")] ∧
    (add ⟨"=", "#", "EndConfigFile", [("apples", "7"), ("pears", "1")]⟩
      " pears " " 3 ").myContents.find (trim " pears ") = some (trim (T_as_string " 3 ")) :=
  ⟨by decide,
   (add_contract String ⟨"=", "#", "EndConfigFile", [("apples", "7"), ("pears", "1")]⟩
      (by decide) " pears " " 3 ").1⟩

/-! ## Reading a `std::string` -/

/-- C9: on a store with the map invariant, `read<std::string>(key)` of a
present key returns the stored string itself, whole, whatever characters
(spaces and newlines included) it holds. -/
theorem read_string_exact (cf : ConfigFile) (hm : cf.myContents.Ordered) (key v : String)
    (hv : (key, v) ∈ cf.myContents) : read String cf key = Except.ok v := by
  unfold read
  rw [(StdMap.find_eq_some_iff _ hm key v).mpr hv]
  rfl

/-- Witness of C9: the stored `one fine day`, `2.5 kg` and a two-line value are
read back whole. -/
theorem read_string_exact_witness :
    StdMap.Ordered [("title", "one fine day"), ("weight", "2.5 kg"), ("zone", "1 2 3\n4 5 6")] ∧
    read String ⟨"=", "#", "EndConfigFile",
      [("title", "one fine day"), ("weight", "2.5 kg"), ("zone", "1 2 3\n4 5 6")]⟩ "title"
      = Except.ok "one fine day" ∧
    read String ⟨"=", "#", "EndConfigFile",
      [("title", "one fine day"), ("weight", "2.5 kg"), ("zone", "1 2 3\n4 5 6")]⟩ "weight"
      = Except.ok "2.5 kg" ∧
    read String ⟨"=", "#", "EndConfigFile",
      [("title", "one fine day"), ("weight", "2.5 kg"), ("zone", "1 2 3\n4 5 6")]⟩ "zone"
      = Except.ok "1 2 3\n4 5 6" :=
  ⟨by decide,
   read_string_exact ⟨"=", "#", "EndConfigFile",
      [("title", "one fine day"), ("weight", "2.5 kg"), ("zone", "1 2 3\n4 5 6")]⟩
      (by decide) "title" "one fine day" (by decide),
   read_string_exact ⟨"=", "#", "EndConfigFile",
      [("title", "one fine day"), ("weight", "2.5 kg"), ("zone", "1 2 3\n4 5 6")]⟩
      (by decide) "weight" "2.5 kg" (by decide),
   read_string_exact ⟨"=", "#", "EndConfigFile",
      [("title", "one fine day"), ("weight", "2.5 kg"), ("zone", "1 2 3\n4 5 6")]⟩
      (by decide) "zone" "1 2 3\n4 5 6" (by decide)⟩

/-! ## `remove` and `keyExists` -/

namespace StdMap

theorem find_erase_self (m : StdMap) (hm : Ordered m) (key : String) :
    find (erase m key) key = none := by
  induction m with
  | nil => rfl
  | cons e rest ih =>
    obtain ⟨k, w⟩ := e
    have hm' := List.pairwise_cons.mp hm
    by_cases hk : key = k
    · subst hk
      simp only [erase, if_true]
      rw [find_eq_none_iff]
      intro v hv
      have := hm'.1 _ hv
      simp [strLess_irrefl] at this
    · simp only [erase, hk, if_false, find]
      exact ih hm'.2

theorem find_erase_of_ne (m : StdMap) (key other : String) (h : other ≠ key) :
    find (erase m key) other = find m other := by
  induction m with
  | nil => rfl
  | cons e rest ih =>
    obtain ⟨k, w⟩ := e
    by_cases hk : key = k
    · subst hk
      simp [erase, find, h]
    · simp only [erase, hk, if_false, find, ih]

theorem erase_of_absent (m : StdMap) (key : String) (h : ∀ v, (key, v) ∉ m) :
    erase m key = m := by
  induction m with
  | nil => rfl
  | cons e rest ih =>
    obtain ⟨k, w⟩ := e
    have hk : ¬ key = k := by
      intro hk
      exact h w (by rw [hk]; exact List.mem_cons_self _ _)
    simp only [erase, hk, if_false]
    rw [ih (fun v hv => h v (List.mem_cons_of_mem _ hv))]

end StdMap

/-- C12: on a store with the map invariant, after `remove(key)` the call
`keyExists(key)` is false and `readInto(var, key)` returns false leaving
`var`; `remove` of an absent key is a plain function result that leaves the
object as it was; every other key finds what it found before. -/
theorem remove_contract (cf : ConfigFile) (hm : cf.myContents.Ordered) (key : String) :
    keyExists (remove cf key) key = false ∧
    (∀ (T : Type) [Conv T] (var : T), readInto (remove cf key) var key = (false, var)) ∧
    ((∀ v, (key, v) ∉ cf.myContents) → remove cf key = cf) ∧
    (∀ k2, k2 ≠ key → (remove cf key).myContents.find k2 = cf.myContents.find k2) ∧
    (∀ k2, k2 ≠ key → keyExists (remove cf key) k2 = keyExists cf k2) := by
  have hf : (remove cf key).myContents.find key = none :=
    StdMap.find_erase_self _ hm key
  have hn : ∀ k2, k2 ≠ key → (remove cf key).myContents.find k2 = cf.myContents.find k2 :=
    fun k2 h => StdMap.find_erase_of_ne _ key k2 h
  refine ⟨?_, ?_, ?_, hn, ?_⟩
  · unfold keyExists
    rw [hf]
    rfl
  · intro T _ var
    unfold readInto
    rw [hf]
    rfl
  · intro h
    unfold remove
    rw [StdMap.erase_of_absent _ key h]
  · intro k2 h
    unfold keyExists
    rw [hn k2 h]

/-- Witness of C12, the documented example: `remove("pears")` on the store
`apples = 7, pears = 3`. -/
theorem remove_contract_witness :
    StdMap.Ordered [("apples", "7"), ("pears", "3")] ∧
    keyExists (remove ⟨"=", "#", "EndConfigFile", [("apples", "7"), ("pears", "3")]⟩ "pears")
      "pears" = false :=
  ⟨by decide,
   (remove_contract ⟨"=", "#", "EndConfigFile", [("apples", "7"), ("pears", "3")]⟩
      (by decide) "pears").1⟩

/-! ## The syntax accessors -/

/-- C17: `setDelimiter(s)` returns the delimiter set before, makes
`getDelimiter()` return `s` and leaves the comment marker, the sentry and the
entries as they were; `setComment(s)` does the same for the comment marker,
leaving the delimiter, the sentry and the entries. -/
theorem set_syntax_contract (cf : ConfigFile) (s : String) :
    ((setDelimiter cf s).1 = getDelimiter cf ∧
      getDelimiter (setDelimiter cf s).2 = s ∧
      getComment (setDelimiter cf s).2 = getComment cf ∧
      getSentry (setDelimiter cf s).2 = getSentry cf ∧
      (setDelimiter cf s).2.myContents = cf.myContents) ∧
    ((setComment cf s).1 = getComment cf ∧
      getComment (setComment cf s).2 = s ∧
      getDelimiter (setComment cf s).2 = getDelimiter cf ∧
      getSentry (setComment cf s).2 = getSentry cf ∧
      (setComment cf s).2.myContents = cf.myContents) :=
  ⟨⟨rfl, rfl, rfl, rfl, rfl⟩, ⟨rfl, rfl, rfl, rfl, rfl⟩⟩

/-! ## Agreement of the lookup forms -/

theorem trim_ne_self_of_space (k : String)
    (hws : (∃ c, k.data.head? = some c ∧ isspace c = true) ∨
      (∃ c, k.data.getLast? = some c ∧ isspace c = true)) : k ≠ trim k := by
  intro h
  have ht : Trimmed k := by
    rw [h]
    exact trim_trimmed k
  rcases hws with ⟨c, hc, hs⟩ | ⟨c, hc, hs⟩
  · rw [ht.1 c hc] at hs
    cases hs
  · rw [ht.2 c hc] at hs
    cases hs

/-- C20: for a key `k` with a non-whitespace character and a leading or
trailing whitespace character, after `add(k, v)` on an empty store the strict
`read<T>(k)` throws `key_not_found(k)`, `readInto(var, k)` returns false
leaving `var`, and `read<T>(trim(k))` succeeds. -/
theorem untrimmed_key_not_found (T : Type) [Conv T] (delimiter comment sentry : String)
    (k : String) (_hne : ∃ c ∈ k.data, isspace c = false)
    (hws : (∃ c, k.data.head? = some c ∧ isspace c = true) ∨
      (∃ c, k.data.getLast? = some c ∧ isspace c = true))
    (v var : T) :
    read T (add ⟨delimiter, comment, sentry, []⟩ k v) k = Except.error ⟨k⟩ ∧
    readInto (add ⟨delimiter, comment, sentry, []⟩ k v) var k = (false, var) ∧
    read T (add ⟨delimiter, comment, sentry, []⟩ k v) (trim k)
      = Except.ok (string_as_T (trim (T_as_string v))) := by
  have hk : k ≠ trim k := trim_ne_self_of_space k hws
  have hf : (add (⟨delimiter, comment, sentry, []⟩ : ConfigFile) k v).myContents.find k
      = none := by
    show StdMap.find [(trim k, trim (T_as_string v))] k = none
    simp [StdMap.find, hk]
  have hg : (add (⟨delimiter, comment, sentry, []⟩ : ConfigFile) k v).myContents.find (trim k)
      = some (trim (T_as_string v)) := StdMap.find_assign_self _ _ _
  refine ⟨?_, ?_, ?_⟩
  · unfold read
    rw [hf]
  · unfold readInto
    rw [hf]
    rfl
  · unfold read
    rw [hg]

/-- Witness of C20: `add(" apples", "7")` on an empty store, then lookups of
`" apples"`. -/
theorem untrimmed_key_not_found_witness :
    read String (add ⟨"=", "#", "EndConfigFile", []⟩ " apples" "7") " apples"
      = Except.error ⟨" apples"⟩ ∧
    readInto (add ⟨"=", "#", "EndConfigFile", []⟩ " apples" "7") "old" " apples"
      = (false, "old") ∧
    read String (add ⟨"=", "#", "EndConfigFile", []⟩ " apples" "7") (trim " apples")
      = Except.ok (string_as_T (trim (T_as_string "7"))) :=
  untrimmed_key_not_found String "=" "#" "EndConfigFile" " apples"
    ⟨'a', by decide, by decide⟩ (Or.inl ⟨' ', by decide, by decide⟩) "7" "old"

/-! ## Numeric reads -/

theorem takeWhile_append_stop {p : Char → Bool} (ds suf : List Char)
    (hds : ∀ c ∈ ds, p c = true) (hsuf : ∀ c, suf.head? = some c → p c = false) :
    (ds ++ suf).takeWhile p = ds := by
  rw [List.takeWhile_append_of_pos hds]
  cases suf with
  | nil => simp
  | cons a as =>
    have ha : p a = false := hsuf a rfl
    simp [List.takeWhile_cons, ha]

theorem get_int_leading_number (t n : Int) (hlo : INT_MIN ≤ n) (hhi : n ≤ INT_MAX)
    (ws suf : List Char) (hws : ∀ c ∈ ws, isspace c = true)
    (hsuf : ∀ c, suf.head? = some c → isdigit c = false) :
    get_int t ⟨ws ++ (put_int n).data ++ suf⟩ = n := by
  obtain ⟨ds, hds, hne, hdig, hval⟩ :=
    putDigits_spec (n.natAbs + 1) n.natAbs [] (Nat.lt_succ_self _)
  rw [List.append_nil] at hds
  have htw : (ds ++ suf).takeWhile isdigit = ds := takeWhile_append_stop ds suf hdig hsuf
  unfold INT_MIN at hlo
  unfold INT_MAX at hhi
  by_cases hn : n < 0
  · have hp : (put_int n).data = '-' :: ds := by
      unfold put_int
      rw [if_pos hn, hds]
    have hv : -((digitsValue ds : Nat) : Int) = n := by rw [hval]; omega
    rw [hp]
    unfold get_int
    have hdw : (ws ++ '-' :: ds ++ suf).dropWhile isspace = '-' :: (ds ++ suf) := by
      rw [List.append_assoc, List.dropWhile_append_of_pos hws, List.cons_append,
        List.dropWhile_cons_of_neg (by decide)]
    simp only [hdw, true_or, if_true, htw, hne, if_false, hv, INT_MIN, INT_MAX]
    rw [if_neg (by omega), if_neg (by omega)]
  · have hp : (put_int n).data = ds := by
      unfold put_int
      rw [if_neg hn, hds]
    have hv : ((digitsValue ds : Nat) : Int) = n := by rw [hval]; omega
    rw [hp]
    unfold get_int
    cases ds with
    | nil => exact absurd rfl hne
    | cons d rest =>
      have hb := isdigit_bounds d (hdig d (List.mem_cons_self _ _))
      have hsp : isspace d = false := isspace_false_of_toNat d (by omega)
      have hdw : (ws ++ d :: rest ++ suf).dropWhile isspace = d :: (rest ++ suf) := by
        rw [List.append_assoc, List.dropWhile_append_of_pos hws, List.cons_append,
          List.dropWhile_cons_of_neg (by simp [hsp])]
      have hm : ¬ d = '-' := by
        intro e; rw [e] at hb; revert hb; decide
      have hpl : ¬ d = '+' := by
        intro e; rw [e] at hb; revert hb; decide
      rw [List.cons_append] at htw
      simp only [hdw, hm, hpl, or_self, if_false, htw, hv, INT_MIN, INT_MAX]
      rw [if_neg (by simp), if_neg (by omega), if_neg (by omega)]

/-- C18: on a store with the map invariant, when the string stored under `key`
is a run of whitespace, the decimal text of an `int` value `n`, and then
nothing or a suffix that starts with a non-digit character, `read<int>(key)`
returns `n`. -/
theorem read_int_leading_number (t0 : Int) (cf : ConfigFile) (hm : cf.myContents.Ordered)
    (key s : String) (hs : (key, s) ∈ cf.myContents)
    (n : Int) (hlo : INT_MIN ≤ n) (hhi : n ≤ INT_MAX) (ws suf : List Char)
    (hform : s.data = ws ++ (put_int n).data ++ suf)
    (hws : ∀ c ∈ ws, isspace c = true)
    (hsuf : ∀ c, suf.head? = some c → isdigit c = false) :
    @read Int (intConv t0) cf key = Except.ok n := by
  have hg : @string_as_T Int (intConv t0) s = n := by
    show get_int t0 s = n
    have hs' : s = ⟨ws ++ (put_int n).data ++ suf⟩ := String.ext hform
    rw [hs']
    exact get_int_leading_number t0 n hlo hhi ws suf hws hsuf
  unfold read
  rw [(StdMap.find_eq_some_iff _ hm key s).mpr hs]
  show Except.ok (@string_as_T Int (intConv t0) s) = Except.ok n
  rw [hg]

/-- Witness of C18: the stored `7` reads as 7 and the stored `2.5 kg` as 2. -/
theorem read_int_leading_number_witness :
    @read Int (intConv 0) ⟨"=", "#", "EndConfigFile", [("apples", "7"), ("weight", "2.5 kg")]⟩
      "apples" = Except.ok 7 ∧
    @read Int (intConv 0) ⟨"=", "#", "EndConfigFile", [("apples", "7"), ("weight", "2.5 kg")]⟩
      "weight" = Except.ok 2 :=
  ⟨read_int_leading_number 0
      ⟨"=", "#", "EndConfigFile", [("apples", "7"), ("weight", "2.5 kg")]⟩ (by decide)
      "apples" "7" (by decide) 7 (by decide) (by decide) [] [] (by decide)
      (by intro c hc; cases hc) (by intro c hc; cases hc),
   read_int_leading_number 0
      ⟨"=", "#", "EndConfigFile", [("apples", "7"), ("weight", "2.5 kg")]⟩ (by decide)
      "weight" "2.5 kg" (by decide) 2 (by decide) (by decide) [] ".5 kg".data (by decide)
      (by intro c hc; cases hc) (by intro c hc; cases hc; decide)⟩

/-! ## Searching a string -/

theorem findPos_eq_none_iff (pat : List Char) : ∀ s : List Char,
    findPos pat s = none ↔ ¬ pat <:+: s
  | [] => by
    by_cases hp : pat = []
    · simp [findPos, hp]
    · simp [findPos, hp]
  | c :: cs => by
    have ih := findPos_eq_none_iff pat cs
    by_cases hpre : pat <+: c :: cs
    · have hb : pat.isPrefixOf (c :: cs) = true := List.isPrefixOf_iff_prefix.mpr hpre
      simp [findPos, hb, hpre.isInfix]
    · have hb : ¬ pat.isPrefixOf (c :: cs) = true :=
        fun h => hpre (List.isPrefixOf_iff_prefix.mp h)
      simp only [findPos, hb, if_false, Option.map_eq_none', ih, List.infix_cons_iff, hpre,
        false_or, Bool.false_eq_true]

theorem not_infix_tail (pat : List Char) (x : Char) (l : List Char)
    (h : ¬ pat <:+: x :: l) : ¬ pat <:+: l :=
  fun hi => h (List.infix_cons_iff.mpr (Or.inr hi))

theorem findPos_first (pat : List Char) : ∀ (a b : List Char),
    ¬ pat <:+: a ++ pat.dropLast → findPos pat (a ++ pat ++ b) = some a.length
  | [], b, h => by
    cases pat with
    | nil => exact absurd List.nil_infix h
    | cons p ps =>
      have hb : (p :: ps).isPrefixOf (p :: (ps ++ b)) = true :=
        List.isPrefixOf_iff_prefix.mpr ⟨b, rfl⟩
      simp [findPos, hb]
  | x :: a, b, h => by
    have hne : pat ≠ [] := fun e => h (e ▸ List.nil_infix)
    have hpre : ¬ pat <+: x :: (a ++ pat ++ b) := by
      intro hp
      have hsplit : x :: (a ++ pat ++ b)
          = (x :: a ++ pat.dropLast) ++ (pat.getLast hne :: b) := by
        conv_lhs => rw [← List.dropLast_append_getLast hne]
        simp
      have h2 : (x :: a ++ pat.dropLast) <+: x :: (a ++ pat ++ b) := ⟨_, hsplit.symm⟩
      have hlen : pat.length ≤ (x :: a ++ pat.dropLast).length := by
        simp only [List.cons_append, List.length_cons, List.length_append,
          List.length_dropLast]
        have : 0 < pat.length := List.length_pos.mpr hne
        omega
      exact h (List.prefix_of_prefix_length_le hp h2 hlen).isInfix
    have hb : ¬ pat.isPrefixOf (x :: (a ++ pat ++ b)) = true :=
      fun e => hpre (List.isPrefixOf_iff_prefix.mp e)
    have ih := findPos_first pat a b (not_infix_tail pat x _ h)
    show findPos pat (x :: (a ++ pat ++ b)) = some (a.length + 1)
    rw [findPos, if_neg hb, ih]
    rfl

theorem not_infix_of_append (pat body extra : List Char) (h : ¬ pat <:+: body ++ extra) :
    ¬ pat <:+: body :=
  fun hi => h (hi.trans (List.infix_append' [] body extra))

theorem stripComment_of_no_marker (comment line : String)
    (h : ¬ comment.data <:+: line.data) : stripComment comment line = line := by
  unfold stripComment
  rw [(findPos_eq_none_iff _ _).mpr h]

theorem stripComment_at_marker (comment : String) (body tail : List Char)
    (h : ¬ comment.data <:+: body ++ comment.data.dropLast) :
    stripComment comment ⟨body ++ comment.data ++ tail⟩ = ⟨body⟩ := by
  have hf := findPos_first comment.data body tail h
  unfold stripComment
  dsimp only
  rw [hf]
  simp

theorem splitDelimiter_at (delimiter : String) (key value : List Char)
    (h : ¬ delimiter.data <:+: key ++ delimiter.data.dropLast) :
    splitDelimiter delimiter ⟨key ++ delimiter.data ++ value⟩ = some (⟨key⟩, ⟨value⟩) := by
  have hf := findPos_first delimiter.data key value h
  unfold splitDelimiter
  dsimp only
  rw [hf]
  simp [← List.length_append]

theorem splitDelimiter_of_no_delimiter (delimiter text : String)
    (h : ¬ delimiter.data <:+: text.data) : splitDelimiter delimiter text = none := by
  unfold splitDelimiter
  rw [(findPos_eq_none_iff _ _).mpr h]

/-! ## One line of the parse loop -/

theorem stripComment_keyValueLine (delimiter comment key value : String)
    (tail : Option String)
    (hc : ¬ comment.data <:+: key.data ++ delimiter.data ++ value.data
      ++ comment.data.dropLast) :
    stripComment comment (keyValueLine delimiter comment key value tail)
      = ⟨key.data ++ delimiter.data ++ value.data⟩ := by
  cases tail with
  | none =>
    exact stripComment_of_no_marker comment _ (not_infix_of_append _ _ _ hc)
  | some t =>
    exact stripComment_at_marker comment _ t.data hc

theorem parseLine_key_value (delimiter comment sentry : String) (st : ParseState)
    (key value : String) (tail : Option String)
    (hc : ¬ comment.data <:+: key.data ++ delimiter.data ++ value.data
      ++ comment.data.dropLast)
    (hd : ¬ delimiter.data <:+: key.data ++ delimiter.data.dropLast)
    (hb : trim ⟨key.data ++ delimiter.data ++ value.data⟩ ≠ "")
    (hs : trim ⟨key.data ++ delimiter.data ++ value.data⟩ ≠ sentry) :
    parseLine delimiter comment sentry st (keyValueLine delimiter comment key value tail)
      = some ⟨st.contents.assign (trim key) (trim value), some (trim key, value)⟩ := by
  unfold parseLine
  simp only [stripComment_keyValueLine delimiter comment key value tail hc, hb, hs, if_false,
    splitDelimiter_at delimiter key.data value.data hd]

theorem parseLine_continuation (delimiter comment sentry : String) (st : ParseState)
    (k raw : String) (hp : st.pending = some (k, raw)) (line : String)
    (hb : trim (stripComment comment line) ≠ "")
    (hs : trim (stripComment comment line) ≠ sentry)
    (hd : ¬ delimiter.data <:+: (stripComment comment line).data) :
    parseLine delimiter comment sentry st line
      = some ⟨st.contents.assign k (trim ⟨raw.data ++ '\n' :: (stripComment comment line).data⟩),
          some (k, ⟨raw.data ++ '\n' :: (stripComment comment line).data⟩)⟩ := by
  unfold parseLine
  simp only [hb, hs, if_false, splitDelimiter_of_no_delimiter delimiter _ hd, hp]

theorem parseLine_blank (delimiter comment sentry : String) (st : ParseState) (line : String)
    (hb : trim (stripComment comment line) = "") :
    parseLine delimiter comment sentry st line = some ⟨st.contents, none⟩ := by
  unfold parseLine
  simp only [hb, if_true]

theorem parseLine_free_comment (delimiter comment sentry : String) (m : StdMap)
    (line : String)
    (hs : trim (stripComment comment line) ≠ sentry)
    (hd : ¬ delimiter.data <:+: (stripComment comment line).data) :
    parseLine delimiter comment sentry ⟨m, none⟩ line = some ⟨m, none⟩ := by
  unfold parseLine
  by_cases hb : trim (stripComment comment line) = ""
  · simp only [hb, if_true]
  · simp only [hb, hs, if_false, splitDelimiter_of_no_delimiter delimiter _ hd]

theorem parseLine_sentry (delimiter comment sentry : String) (st : ParseState) (line : String)
    (hne : sentry ≠ "") (hs : trim (stripComment comment line) = sentry) :
    parseLine delimiter comment sentry st line = none := by
  unfold parseLine
  simp only [hs, hne, if_false, if_true]

namespace StdMap

theorem assign_assign (m : StdMap) (key v w : String) :
    assign (assign m key v) key w = assign m key w := by
  induction m with
  | nil => simp [assign]
  | cons e rest ih =>
    obtain ⟨k, u⟩ := e
    by_cases hk : key = k
    · simp [assign, hk]
    · by_cases hl : strLess key.data k.data = true
      · simp [assign, hk, hl]
      · have hl' : strLess key.data k.data = false := by simpa using hl
        simp [assign, hk, hl', ih]

end StdMap

theorem parseLines_cons_some (delimiter comment sentry : String) (line : String)
    (rest : List String) (st st2 : ParseState)
    (h : parseLine delimiter comment sentry st line = some st2) :
    parseLines delimiter comment sentry (line :: rest) st
      = parseLines delimiter comment sentry rest st2 := by
  rw [parseLines, h]

theorem parseLines_cons_none (delimiter comment sentry : String) (line : String)
    (rest : List String) (st : ParseState)
    (h : parseLine delimiter comment sentry st line = none) :
    parseLines delimiter comment sentry (line :: rest) st = st.contents := by
  rw [parseLines, h]

theorem parseLines_continuations (delimiter comment sentry : String) (rest : List String)
    (m : StdMap) (k : String) : ∀ (conts : List String) (raw : String),
    (∀ l ∈ conts, trim (stripComment comment l) ≠ "" ∧
      trim (stripComment comment l) ≠ sentry ∧
      ¬ delimiter.data <:+: (stripComment comment l).data) →
    parseLines delimiter comment sentry (conts ++ rest) ⟨m.assign k (trim raw), some (k, raw)⟩
      = parseLines delimiter comment sentry rest
          ⟨m.assign k (trim ⟨raw.data ++
              (conts.map (fun l => '\n' :: (stripComment comment l).data)).flatten⟩),
            some (k, ⟨raw.data ++
              (conts.map (fun l => '\n' :: (stripComment comment l).data)).flatten⟩)⟩
  | [], raw, _ => by
    simp only [List.nil_append, List.map_nil, List.flatten_nil, List.append_nil]
  | l :: conts, raw, h => by
    obtain ⟨hb, hs, hd⟩ := h l (List.mem_cons_self _ _)
    have hstep := parseLine_continuation delimiter comment sentry
      ⟨m.assign k (trim raw), some (k, raw)⟩ k raw rfl l hb hs hd
    rw [List.cons_append, parseLines, hstep]
    simp only [StdMap.assign_assign]
    rw [parseLines_continuations delimiter comment sentry rest m k conts _
      (fun l2 hl2 => h l2 (List.mem_cons_of_mem _ hl2))]
    simp only [List.map_cons, List.flatten_cons, List.append_assoc, List.cons_append]

/-! ## Key/value lines -/

/-- C14 as stated fails: with the delimiter `==` the line `a===b`, made of the
key `a=`, the delimiter and the value `b`, is split at its first `==` and
stores `a` with `=b`; with the sentry `a=b` the line `a=b` stops the parse and
stores nothing. Key and value hold neither the delimiter nor the comment
marker in both cases. -/
theorem key_value_line_not_always_stored :
    (¬ "==".data <:+: "a=".data ∧ ¬ "#".data <:+: "a=".data ∧
      ¬ "==".data <:+: "b".data ∧ ¬ "#".data <:+: "b".data ∧
      (parseLines "==" "#" "EndConfigFile" [keyValueLine "==" "#" "a=" "b" none]
        ⟨[], none⟩).find (trim "a=") ≠ some (trim "b")) ∧
    (¬ "=".data <:+: "a".data ∧ ¬ "#".data <:+: "a".data ∧
      ¬ "=".data <:+: "b".data ∧ ¬ "#".data <:+: "b".data ∧
      (parseLines "=" "#" "a=b" [keyValueLine "=" "#" "a" "b" none]
        ⟨[], none⟩).find (trim "a") ≠ some (trim "b")) := by
  decide

/-- C14 amended: a line made of key, delimiter and value, followed or not by
the comment marker and any text, stores `trim(key)` with `trim(value)` in the
state it is parsed in, provided the comment marker does not occur in
key-delimiter-value (nor across its end), the first occurrence of the
delimiter is the one after the key, and key-delimiter-value is neither blank
nor the sentry. -/
theorem key_value_line_stored (delimiter comment sentry : String) (st : ParseState)
    (key value : String) (tail : Option String)
    (hc : ¬ comment.data <:+: key.data ++ delimiter.data ++ value.data
      ++ comment.data.dropLast)
    (hd : ¬ delimiter.data <:+: key.data ++ delimiter.data.dropLast)
    (hb : trim ⟨key.data ++ delimiter.data ++ value.data⟩ ≠ "")
    (hs : trim ⟨key.data ++ delimiter.data ++ value.data⟩ ≠ sentry) :
    parseLines delimiter comment sentry [keyValueLine delimiter comment key value tail] st
      = st.contents.assign (trim key) (trim value) ∧
    (parseLines delimiter comment sentry [keyValueLine delimiter comment key value tail]
      st).find (trim key) = some (trim value) := by
  have h : parseLines delimiter comment sentry
      [keyValueLine delimiter comment key value tail] st
      = st.contents.assign (trim key) (trim value) := by
    rw [parseLines, parseLine_key_value delimiter comment sentry st key value tail hc hd hb hs]
    rfl
  rw [h]
  exact ⟨rfl, StdMap.find_assign_self _ _ _⟩

/-- Witness of C14, the example of the spec: the line `apples = 7  # comment`
with the default syntax stores `apples` with `7`, and `read<int>("apples")`
then returns 7. -/
theorem key_value_line_stored_witness :
    (parseLines "=" "#" "EndConfigFile"
      [keyValueLine "=" "#" "apples " " 7  " (some " comment")] ⟨[], none⟩).find
        (trim "apples ") = some (trim " 7  ") ∧
    keyValueLine "=" "#" "apples " " 7  " (some " comment") = "apples = 7  # comment" ∧
    @read Int (intConv 0) (streamIn ⟨"=", "#", "EndConfigFile", []⟩ "apples = 7  # comment")
      "apples" = Except.ok 7 :=
  ⟨(key_value_line_stored "=" "#" "EndConfigFile" ⟨[], none⟩ "apples " " 7  "
      (some " comment") (by decide) (by decide) (by decide) (by decide)).2,
   by decide, rfl⟩

/-! ## The sentry -/

/-- C15 as stated fails for the empty sentry: in the text made of an empty
line and the line `b=2`, the first line has the content of the sentry, yet the
store is not the one of the lines before it: `b` is stored. -/
theorem empty_sentry_does_not_stop :
    getlines "\nb=2" = [] ++ "" :: ["b=2"] ∧
    trim (stripComment "#" "") = "" ∧
    (streamIn ⟨"=", "#", "", []⟩ "\nb=2").myContents
      ≠ parseLines "=" "#" "" [] ⟨[], none⟩ ∧
    (streamIn ⟨"=", "#", "", []⟩ "\nb=2").myContents.find "b" = some "2" := by
  decide

theorem parseLines_stop_at_sentry (delimiter comment sentry : String) (hne : sentry ≠ "")
    (l : String) (hl : trim (stripComment comment l) = sentry) (post : List String) :
    ∀ (pre : List String) (st : ParseState),
      parseLines delimiter comment sentry (pre ++ l :: post) st
        = parseLines delimiter comment sentry pre st
  | [], st => by
    rw [List.nil_append, parseLines_cons_none delimiter comment sentry l post st
      (parseLine_sentry delimiter comment sentry st l hne hl)]
    rfl
  | l2 :: pre, st => by
    rw [List.cons_append, parseLines, parseLines]
    cases parseLine delimiter comment sentry st l2 with
    | none => rfl
    | some st2 => exact parseLines_stop_at_sentry delimiter comment sentry hne l hl post pre st2

/-- C15 amended: when the sentry is not empty and a line of the input text has
the sentry as its comment-stripped, trimmed content, the store after loading
the text is the store obtained by parsing only the lines before that line, so
it equals the store loaded from any text made of those lines. -/
theorem sentry_stops_parsing (cf : ConfigFile) (hne : cf.mySentry ≠ "") (text : String)
    (pre post : List String) (l : String) (hlines : getlines text = pre ++ l :: post)
    (hl : trim (stripComment cf.myComment l) = cf.mySentry) :
    (streamIn cf text).myContents
      = parseLines cf.myDelimiter cf.myComment cf.mySentry pre ⟨cf.myContents, none⟩ ∧
    ∀ text2 : String, getlines text2 = pre →
      (streamIn cf text).myContents = (streamIn cf text2).myContents := by
  have h : (streamIn cf text).myContents
      = parseLines cf.myDelimiter cf.myComment cf.mySentry pre ⟨cf.myContents, none⟩ := by
    show parseLines cf.myDelimiter cf.myComment cf.mySentry (getlines text) _ = _
    rw [hlines]
    exact parseLines_stop_at_sentry _ _ _ hne l hl post pre _
  refine ⟨h, ?_⟩
  intro text2 h2
  rw [h]
  show _ = parseLines cf.myDelimiter cf.myComment cf.mySentry (getlines text2) _
  rw [h2]

/-- Witness of C15: with the default syntax, in the text `a=1`,
`EndConfigFile # end`, `b=2` the key `b` of the line after the sentry is
absent and `a` is stored. -/
theorem sentry_stops_parsing_witness :
    (streamIn ⟨"=", "#", "EndConfigFile", []⟩ "a=1\nEndConfigFile # end\nb=2\n").myContents
      = parseLines "=" "#" "EndConfigFile" ["a=1"] ⟨[], none⟩ ∧
    (streamIn ⟨"=", "#", "EndConfigFile", []⟩
      "a=1\nEndConfigFile # end\nb=2\n").myContents.find "b" = none ∧
    (streamIn ⟨"=", "#", "EndConfigFile", []⟩
      "a=1\nEndConfigFile # end\nb=2\n").myContents.find "a" = some "1" :=
  ⟨(sentry_stops_parsing ⟨"=", "#", "EndConfigFile", []⟩ (by decide)
      "a=1\nEndConfigFile # end\nb=2\n" ["a=1"] ["b=2"] "EndConfigFile # end"
      (by decide) (by decide)).1,
   by decide, by decide⟩

/-! ## Multi-line values -/

/-- C16 as stated fails on the example of the spec: the text `zone = 1 2 3`
followed by the indented line ` 4 5 6` gives `zone` the value `1 2 3`, newline,
` 4 5 6` with its leading blank, not the trimmed contents joined by a newline. -/
theorem continuation_keeps_indentation :
    (streamIn ⟨"=", "#", "EndConfigFile", []⟩ "zone = 1 2 3\n 4 5 6").myContents.find "zone"
      = some "1 2 3\n 4 5 6" ∧
    (streamIn ⟨"=", "#", "EndConfigFile", []⟩ "zone = 1 2 3\n 4 5 6").myContents.find "zone"
      ≠ some ⟨(trim " 1 2 3").data ++ '\n' :: (trim (stripComment "#" " 4 5 6")).data⟩ := by
  decide

/-- C16 amended: a well-formed key/value line followed at once by lines that,
once their comment is stripped, are not blank, hold no delimiter and are not
the sentry, gives one entry for `trim(key)`: its value is the value text of
the first line and the comment-stripped text of each following line, joined
by newline characters and trimmed as a whole, so the indentation of the
following lines stays in the value. When a blank line and then a line without
delimiter (not the sentry) follow, that line is ignored and the parse goes on
with the same store and no open value. -/
theorem multi_line_value (delimiter comment sentry : String) (st : ParseState)
    (key value : String) (tail : Option String) (conts : List String)
    (hc : ¬ comment.data <:+: key.data ++ delimiter.data ++ value.data
      ++ comment.data.dropLast)
    (hd : ¬ delimiter.data <:+: key.data ++ delimiter.data.dropLast)
    (hb : trim ⟨key.data ++ delimiter.data ++ value.data⟩ ≠ "")
    (hs : trim ⟨key.data ++ delimiter.data ++ value.data⟩ ≠ sentry)
    (hconts : ∀ l ∈ conts, trim (stripComment comment l) ≠ "" ∧
      trim (stripComment comment l) ≠ sentry ∧
      ¬ delimiter.data <:+: (stripComment comment l).data) :
    parseLines delimiter comment sentry
        (keyValueLine delimiter comment key value tail :: conts) st
      = st.contents.assign (trim key)
          (trim ⟨value.data ++
            (conts.map (fun l => '\n' :: (stripComment comment l).data)).flatten⟩) ∧
    ∀ (blank free : String) (rest : List String),
      trim (stripComment comment blank) = "" →
      trim (stripComment comment free) ≠ sentry →
      ¬ delimiter.data <:+: (stripComment comment free).data →
      parseLines delimiter comment sentry
          (keyValueLine delimiter comment key value tail :: (conts ++ blank :: free :: rest)) st
        = parseLines delimiter comment sentry rest
            ⟨st.contents.assign (trim key)
              (trim ⟨value.data ++
                (conts.map (fun l => '\n' :: (stripComment comment l).data)).flatten⟩),
             none⟩ := by
  have hkey := parseLine_key_value delimiter comment sentry st key value tail hc hd hb hs
  constructor
  · rw [parseLines_cons_some delimiter comment sentry _ conts st _ hkey]
    have := parseLines_continuations delimiter comment sentry [] st.contents (trim key)
      conts value hconts
    rw [List.append_nil] at this
    rw [this]
    rfl
  · intro blank free rest hblank hfs hfd
    rw [parseLines_cons_some delimiter comment sentry _ _ st _ hkey,
      parseLines_continuations delimiter comment sentry (blank :: free :: rest) st.contents
        (trim key) conts value hconts,
      parseLines_cons_some delimiter comment sentry blank _ _ _
        (parseLine_blank delimiter comment sentry _ blank hblank),
      parseLines_cons_some delimiter comment sentry free _ _ _
        (parseLine_free_comment delimiter comment sentry _ free hfs hfd)]

/-- Witness of C16, the `zone` value of the documented example file with its
two continuation lines, a blank line and a free comment. -/
theorem multi_line_value_witness :
    parseLines "=" "#" "EndConfigFile"
      [keyValueLine "=" "#" "zone   " " 1 2 3  " (some " comment after 1st point"),
        "         4 5 6  # comment after 2nd point",
        "         7 8 9  # comment after 3rd point"] ⟨[], none⟩
      = [("zone", "1 2 3  \n         4 5 6  \n         7 8 9")] ∧
    parseLines "=" "#" "EndConfigFile"
      (keyValueLine "=" "#" "zone   " " 1 2 3  " (some " comment after 1st point") ::
        (["         4 5 6  # comment after 2nd point",
          "         7 8 9  # comment after 3rd point"] ++
          "" :: "This is also a comment since it has no equals sign." :: [])) ⟨[], none⟩
      = [("zone", "1 2 3  \n         4 5 6  \n         7 8 9")] :=
  have h := multi_line_value "=" "#" "EndConfigFile" ⟨[], none⟩ "zone   " " 1 2 3  "
    (some " comment after 1st point")
    ["         4 5 6  # comment after 2nd point", "         7 8 9  # comment after 3rd point"]
    (by decide) (by decide) (by decide) (by decide) (by decide)
  ⟨h.1.trans (by decide),
   (h.2 "" "This is also a comment since it has no equals sign." [] (by decide) (by decide)
      (by decide)).trans (by decide)⟩

/-! ## Writing the store and reading it back -/

theorem linesFrom_newline (cur cs : List Char) :
    linesFrom cur ('\n' :: cs) = ⟨cur⟩ :: linesFrom [] cs := by
  simp [linesFrom]

theorem linesFrom_other (cur : List Char) (c : Char) (cs : List Char) (h : ¬ c = '\n') :
    linesFrom cur (c :: cs) = linesFrom (cur ++ [c]) cs := by
  simp [linesFrom, h]

theorem pieces_newline (cs : List Char) :
    pieces ('\n' :: cs) = ([], (pieces cs).1 :: (pieces cs).2) := by
  simp [pieces]

theorem pieces_other (c : Char) (cs : List Char) (h : ¬ c = '\n') :
    pieces (c :: cs) = (c :: (pieces cs).1, (pieces cs).2) := by
  simp [pieces, h]

theorem linesFrom_append_newline : ∀ (v cur rest : List Char),
    linesFrom cur (v ++ '\n' :: rest)
      = ⟨cur ++ (pieces v).1⟩ :: ((pieces v).2.map String.mk ++ linesFrom [] rest)
  | [], cur, rest => by
    rw [List.nil_append, linesFrom_newline]
    simp [pieces]
  | c :: v, cur, rest => by
    rw [List.cons_append]
    by_cases hc : c = '\n'
    · subst hc
      rw [linesFrom_newline, linesFrom_append_newline v [] rest, pieces_newline]
      simp
    · rw [linesFrom_other cur c _ hc, linesFrom_append_newline v (cur ++ [c]) rest,
        pieces_other c v hc]
      simp

theorem pieces_append_of_no_newline : ∀ (a v : List Char), '\n' ∉ a →
    pieces (a ++ v) = (a ++ (pieces v).1, (pieces v).2)
  | [], v, _ => rfl
  | c :: a, v, h => by
    have hc : ¬ c = '\n' := fun e => h (e ▸ List.mem_cons_self _ _)
    have ih := pieces_append_of_no_newline a v (fun hm => h (List.mem_cons_of_mem _ hm))
    rw [List.cons_append, pieces_other c _ hc, ih]
    rfl

theorem pieces_join : ∀ v : List Char,
    (pieces v).1 ++ ((pieces v).2.map (fun l => '\n' :: l)).flatten = v
  | [] => rfl
  | c :: v => by
    have ih := pieces_join v
    by_cases hc : c = '\n'
    · subst hc
      rw [pieces_newline]
      simp only [List.nil_append, List.map_cons, List.flatten_cons, List.cons_append]
      rw [ih]
    · rw [pieces_other c v hc]
      simp only [List.cons_append]
      rw [ih]

theorem getlines_streamOut (delimiter : List Char) (hd : '\n' ∉ delimiter) :
    ∀ es : StdMap, (∀ e ∈ es, '\n' ∉ e.1.data) →
      linesFrom [] (es.map (fun e => e.1.data ++ delimiter ++ e.2.data ++ ['\n'])).flatten
        = (es.map (entryLines ⟨delimiter⟩)).flatten
  | [], _ => rfl
  | e :: es, h => by
    have ih := getlines_streamOut delimiter hd es (fun e2 he2 => h e2 (List.mem_cons_of_mem _ he2))
    have hk : '\n' ∉ e.1.data ++ delimiter := by
      intro hm
      rcases List.mem_append.mp hm with hm | hm
      · exact h e (List.mem_cons_self _ _) hm
      · exact hd hm
    have hp := pieces_append_of_no_newline (e.1.data ++ delimiter) e.2.data hk
    show linesFrom [] ((e.1.data ++ delimiter ++ e.2.data ++ ['\n'])
        ++ (es.map (fun e => e.1.data ++ delimiter ++ e.2.data ++ ['\n'])).flatten)
      = entryLines ⟨delimiter⟩ e ++ (es.map (entryLines ⟨delimiter⟩)).flatten
    have hre : ∀ R : List Char, (e.1.data ++ delimiter ++ e.2.data ++ ['\n']) ++ R
        = (e.1.data ++ delimiter ++ e.2.data) ++ '\n' :: R := by
      intro R
      simp
    rw [hre, linesFrom_append_newline, ih, hp]
    rfl

theorem parseLine_of_text (delimiter comment sentry : String) (st : ParseState)
    (line : String) (key value : List Char)
    (htext : stripComment comment line = ⟨key ++ delimiter.data ++ value⟩)
    (hd : ¬ delimiter.data <:+: key ++ delimiter.data.dropLast)
    (hb : trim ⟨key ++ delimiter.data ++ value⟩ ≠ "")
    (hs : trim ⟨key ++ delimiter.data ++ value⟩ ≠ sentry) :
    parseLine delimiter comment sentry st line
      = some ⟨st.contents.assign (trim ⟨key⟩) (trim ⟨value⟩), some (trim ⟨key⟩, ⟨value⟩)⟩ := by
  unfold parseLine
  simp only [htext, hb, hs, if_false, splitDelimiter_at delimiter key value hd]

theorem parseLines_entry (delimiter comment sentry : String) (e : String × String)
    (he : Reloadable delimiter comment sentry e) (rest : List String) (st : ParseState) :
    parseLines delimiter comment sentry (entryLines delimiter e ++ rest) st
      = parseLines delimiter comment sentry rest ⟨st.contents.assign e.1 e.2, some (e.1, e.2)⟩ := by
  obtain ⟨hk, hv, _, hc, hd, hb, hs, hl⟩ := he
  have htext : stripComment comment ⟨e.1.data ++ delimiter.data ++ (pieces e.2.data).1⟩
      = ⟨e.1.data ++ delimiter.data ++ (pieces e.2.data).1⟩ :=
    stripComment_of_no_marker comment _ hc
  have hkey := parseLine_of_text delimiter comment sentry st _ e.1.data (pieces e.2.data).1
    htext hd hb hs
  have hstrip : ∀ l ∈ (pieces e.2.data).2.map String.mk, stripComment comment l = l := by
    intro l hl2
    obtain ⟨l0, hl0, rfl⟩ := List.mem_map.mp hl2
    exact stripComment_of_no_marker comment _ (hl l0 hl0).1
  have hconts : ∀ l ∈ (pieces e.2.data).2.map String.mk,
      trim (stripComment comment l) ≠ "" ∧ trim (stripComment comment l) ≠ sentry ∧
        ¬ delimiter.data <:+: (stripComment comment l).data := by
    intro l hl2
    rw [hstrip l hl2]
    obtain ⟨l0, hl0, rfl⟩ := List.mem_map.mp hl2
    exact ⟨(hl l0 hl0).2.2.1, (hl l0 hl0).2.2.2, (hl l0 hl0).2.1⟩
  have hraw : (pieces e.2.data).1 ++
      (((pieces e.2.data).2.map String.mk).map
        (fun l => '\n' :: (stripComment comment l).data)).flatten = e.2.data := by
    have hmap : ((pieces e.2.data).2.map String.mk).map
        (fun l => '\n' :: (stripComment comment l).data)
        = (pieces e.2.data).2.map (fun l => '\n' :: l) := by
      rw [List.map_map]
      apply List.map_congr_left
      intro l0 hl0
      show '\n' :: (stripComment comment ⟨l0⟩).data = '\n' :: l0
      rw [stripComment_of_no_marker comment ⟨l0⟩ (hl l0 hl0).1]
    rw [hmap, pieces_join]
  have hk' : trim ⟨e.1.data⟩ = e.1 := hk
  unfold entryLines
  rw [List.cons_append, parseLines_cons_some delimiter comment sentry _ _ st _ hkey,
    parseLines_continuations delimiter comment sentry rest st.contents (trim ⟨e.1.data⟩)
      ((pieces e.2.data).2.map String.mk) ⟨(pieces e.2.data).1⟩ hconts]
  simp only [hraw, hk']
  have hv' : trim ⟨e.2.data⟩ = e.2 := hv
  rw [hv']

theorem parseLines_entries (delimiter comment sentry : String) :
    ∀ (es : StdMap) (st : ParseState),
      (∀ e ∈ es, Reloadable delimiter comment sentry e) →
      parseLines delimiter comment sentry (es.map (entryLines delimiter)).flatten st
        = es.foldl (fun m e => m.assign e.1 e.2) st.contents
  | [], st, _ => rfl
  | e :: es, st, h => by
    rw [List.map_cons, List.flatten_cons,
      parseLines_entry delimiter comment sentry e (h e (List.mem_cons_self _ _)),
      parseLines_entries delimiter comment sentry es _
        (fun e2 he2 => h e2 (List.mem_cons_of_mem _ he2))]
    rfl

namespace StdMap

theorem find_foldl_assign : ∀ (es : StdMap), Ordered es → ∀ (m : StdMap) (key : String),
    find (es.foldl (fun m e => m.assign e.1 e.2) m) key
      = match find es key with
        | some v => some v
        | none => find m key
  | [], _, m, key => rfl
  | (k, v) :: es, hes, m, key => by
    have hes' := List.pairwise_cons.mp hes
    rw [List.foldl_cons, find_foldl_assign es hes'.2 (m.assign k v) key]
    by_cases hk : key = k
    · subst hk
      have hnone : find es key = none := by
        rw [find_eq_none_iff]
        intro w hw
        have := hes'.1 _ hw
        simp [strLess_irrefl] at this
      simp only [hnone, find, if_true, find_assign_self]
    · simp only [find, hk, if_false, find_assign_of_ne m k v key hk]

end StdMap

/-- C13 as stated fails: the store `a = x#y` is written as the line `a=x#y`,
which is read back as `a = x`, the rest being taken for a comment; the store
`k =` two lines `a` and `b` separated by an empty line is read back as
`k = a`. Both stores are produced by `add` on an empty store. -/
theorem write_read_loses_values :
    (add ⟨"=", "#", "EndConfigFile", []⟩ "a" "x#y").myContents = [("a", "x#y")] ∧
    (streamIn ⟨"=", "#", "EndConfigFile", []⟩
      (streamOut ⟨"=", "#", "EndConfigFile", [("a", "x#y")]⟩)).myContents.find "a"
      = some "x" ∧
    (add ⟨"=", "#", "EndConfigFile", []⟩ "k" "a\n\nb").myContents = [("k", "a\n\nb")] ∧
    (streamIn ⟨"=", "#", "EndConfigFile", []⟩
      (streamOut ⟨"=", "#", "EndConfigFile", [("k", "a\n\nb")]⟩)).myContents.find "k"
      = some "a" := by
  decide

/-- C13 amended: for a store with the map invariant whose delimiter holds no
newline and whose entries are all reloadable (trimmed key and value, no
newline in the key, and written lines that hold no comment marker, hold the
delimiter only right after the key, and are neither blank nor the sentry),
writing it with `operator<<` and reading the text back with `operator>>` into
an empty object of the same syntax gives a store in which every key finds
what it finds in the original. -/
theorem write_read_round_trip (cf : ConfigFile) (hm : cf.myContents.Ordered)
    (hd : '\n' ∉ cf.myDelimiter.data)
    (hall : ∀ e ∈ cf.myContents, Reloadable cf.myDelimiter cf.myComment cf.mySentry e)
    (key : String) :
    (streamIn ⟨cf.myDelimiter, cf.myComment, cf.mySentry, []⟩
      (streamOut cf)).myContents.find key = cf.myContents.find key := by
  have hlines : getlines (streamOut cf)
      = (cf.myContents.map (entryLines cf.myDelimiter)).flatten :=
    getlines_streamOut cf.myDelimiter.data hd cf.myContents (fun e he => (hall e he).2.2.1)
  show StdMap.find (parseLines cf.myDelimiter cf.myComment cf.mySentry
    (getlines (streamOut cf)) ⟨[], none⟩) key = _
  rw [hlines, parseLines_entries cf.myDelimiter cf.myComment cf.mySentry cf.myContents _ hall,
    StdMap.find_foldl_assign cf.myContents hm [] key]
  cases cf.myContents.find key with
  | none => rfl
  | some v => rfl

/-- Witness of C13: the store read from the documented example file, with its
three-line `zone` value, is written and read back with the default syntax. -/
theorem write_read_round_trip_witness :
    (streamIn ⟨"=", "#", "EndConfigFile", []⟩
      (streamOut ⟨"=", "#", "EndConfigFile",
        [("apples", "7"), ("title", "one fine day"),
          ("zone", "1 2 3  \n         4 5 6  \n         7 8 9")]⟩)).myContents.find "zone"
      = some "1 2 3  \n         4 5 6  \n         7 8 9" :=
  write_read_round_trip
    ⟨"=", "#", "EndConfigFile",
      [("apples", "7"), ("title", "one fine day"),
        ("zone", "1 2 3  \n         4 5 6  \n         7 8 9")]⟩
    (by decide) (by decide) (by decide) "zone"

end ConfigFile

/-! ## The configuration path of `main` -/

namespace Main

/-- C10, the code at the documented usage: for the argument `-FORECAST_GRIB`
the constructor receives `conf/.conf`, not `conf/FORECAST_GRIB.conf`, and
two different names give the same path. -/
theorem configFilename_drops_name :
    configFilename ["./PullApiData", "-FORECAST_GRIB", "20180402", "0600"]
      = some "conf/.conf" ∧
    configFilename ["./PullApiData", "-FORECAST_GRIB", "20180402", "0600"]
      ≠ some "conf/FORECAST_GRIB.conf" ∧
    configFilename ["./PullApiData", "-FORECAST_SPACE", "20180402", "0600"]
      = configFilename ["./PullApiData", "-FORECAST_GRIB", "20180402", "0600"] := by
  decide

/-! ## The response buffer -/

theorem deliver_eq (chunks : List String) (buffer : String) :
    deliver chunks buffer =
      ⟨buffer.data ++ (chunks.map (fun c => c.data ++ ['\n'])).flatten⟩ := by
  induction chunks generalizing buffer with
  | nil => simp [deliver]
  | cons chunk rest ih =>
    simp only [deliver, WriteCallback, Nat.one_mul, if_true, ih, List.take_length,
      List.map_cons, List.flatten_cons, List.append_assoc]

/-- C11 as stated fails: for the two chunks `ab` and `cd` the buffer is
`ab\ncd\n`, not the concatenation `abcd`. -/
theorem printedBuffer_not_concatenation :
    printedBuffer ["ab", "cd"] = "ab\ncd\n" ∧ printedBuffer ["ab", "cd"] ≠ "abcd" := by
  decide

/-- C11 amended: for every sequence of chunks delivered to `WriteCallback`,
the buffer that `main` prints is the concatenation, in delivery order, of each
chunk followed by one newline character. -/
theorem printedBuffer_chunks_with_newlines (chunks : List String) :
    printedBuffer chunks = ⟨(chunks.map (fun c => c.data ++ ['\n'])).flatten⟩ := by
  unfold printedBuffer
  rw [deliver_eq]
  rfl

end Main
